import Mathlib

/-! CppBenchmark: the producers/consumers benchmark launcher

A shallow embedding of `BenchmarkMPMC::Launch` (`source/benchmark_mpmc.cpp`).

* Machine integers are `Int` with explicit two's complement wrap-around at the
  places where the source does arithmetic on them (`int64_t` budgets, the
  `int attempt` counter).
* User hooks, the clock and the cancellation flag are oracles (`TaskEnv`, `Env`):
  a hook either returns or throws, the clock gives the measured duration of
  each `Run*` call, and the flag gives the value read at each loop check.
* Every call made by the orchestrating thread is appended to the benchmark's
  `log`; every call made by a worker task is appended to the task's own log.
* Loops that may run forever take fuel and return `none` when it runs out.
-/

namespace CppBenchmark

/-! ## Machine integers -/

/-- Two's complement wrap-around of an `int64_t` value. -/
def wrap64 (x : Int) : Int := (x + 2 ^ 63) % 2 ^ 64 - 2 ^ 63

/-- Two's complement wrap-around of an `int` (32-bit) value. -/
def wrap32 (x : Int) : Int := (x + 2 ^ 31) % 2 ^ 32 - 2 ^ 31

/-! ## Phases and contexts -/

/-- The two kinds of worker task started by `Launch`. -/
inductive Role
  | producer
  | consumer
  deriving DecidableEq, Repr

/-- The string literal passed to `StartPhaseThreadSafe` by a task of the given role. -/
def Role.phaseName : Role → String
  | .producer => "producer"
  | .consumer => "consumer"

/-- Identity of a phase (and of the metrics it owns). `null` is the value of the
context's pointers before `InitBenchmarkContext`; `root m p` is the root phase
of the sweep point with pair `m` and parameter tuple `p`; `child n t` is the
phase created by task `t` of the `n`-th sweep point executed. -/
inductive PhaseId
  | null
  | root (mpmc : Int × Int) (param : Int × Int × Int)
  | child (point : Nat) (task : Nat)
  deriving DecidableEq, Repr

/-- The fields of `ContextMPMC` that `Launch` reads or writes. `_metrics` is
identified with the phase whose metrics it points to. -/
structure ContextMPMC where
  producers : Int
  consumers : Int
  x : Int
  y : Int
  z : Int
  _current : PhaseId
  _metrics : PhaseId
  deriving DecidableEq, Repr

/-- How a piece of code was left: by returning or by a thrown exception. -/
inductive Exit
  | normal
  | exception
  deriving DecidableEq, Repr

/-! ## Worker tasks -/

/-- Calls made by one worker task (the body of a lambda given to `std::async`). -/
inductive TaskEvent
  | StartPhaseThreadSafe (parent : PhaseId) (name : String) (created : PhaseId)
  | InitializeRole (role : Role) (ctx : ContextMPMC)
  | StartCollectingMetrics (phase : PhaseId)
  | AddIterations (metrics : PhaseId) (n : Nat)
  | RunRole (role : Role) (ctx : ContextMPMC)
  | StopCollectingMetrics (phase : PhaseId)
  | CleanupRole (role : Role) (ctx : ContextMPMC)
  | UpdateBenchmarkMetrics (phase : PhaseId)
  | StopPhase (phase : PhaseId)
  deriving DecidableEq, Repr

/-- Oracles for one worker task: which user hooks throw, the duration measured
around the `j`-th `Run*` call (`duration_cast<nanoseconds>(stop - start).count()`),
and the value returned by `canceled()` at the `j`-th evaluation of the loop
condition (both counted from 0). -/
structure TaskEnv where
  InitializeThrows : Bool
  RunThrows : Nat → Bool
  CleanupThrows : Bool
  duration : Nat → Int
  canceled : Nat → Bool

/-- Local variables of the measuring loop of a task, with the number of
completed passes and the task's log. -/
structure LoopState where
  iterations : Int
  nanoseconds : Int
  calls : Nat
  log : List TaskEvent

/-- The loop condition
`!context.canceled() && ((iterations > 0) || (nanoseconds > 0))`. -/
def loopCond (env : TaskEnv) (s : LoopState) : Bool :=
  !env.canceled s.calls && (decide (s.iterations > 0) || decide (s.nanoseconds > 0))

/-- First half of the loop body: `AddIterations(1)` on the context's metrics,
then the call of `RunProducer` / `RunConsumer`. -/
def callRun (role : Role) (ctx : ContextMPMC) (s : LoopState) : LoopState :=
  { s with log := s.log ++ [.AddIterations ctx._metrics 1, .RunRole role ctx] }

/-- Second half of the loop body, reached when `Run*` returned: when the time
budget is still positive the measured duration is subtracted from it, and the
iteration counter is decremented. -/
def afterRun (env : TaskEnv) (s : LoopState) : LoopState :=
  { s with
    nanoseconds :=
      if s.nanoseconds > 0 then wrap64 (s.nanoseconds - env.duration s.calls)
      else s.nanoseconds
    iterations := wrap64 (s.iterations - 1)
    calls := s.calls + 1 }

/-- The measuring loop
`while (!canceled() && (iterations > 0 || nanoseconds > 0)) { ... }`.
Returns `none` when the fuel runs out. -/
def workerLoop (role : Role) (ctx : ContextMPMC) (env : TaskEnv) :
    Nat → LoopState → Option (Exit × LoopState)
  | 0, _ => none
  | fuel + 1, s =>
    if loopCond env s then
      let s1 := callRun role ctx s
      if env.RunThrows s.calls then some (.exception, s1)
      else workerLoop role ctx env fuel (afterRun env s1)
    else some (.normal, s)

/-- What is known of a finished task: its role, its index in `_futures`,
how it ended and the calls it made. -/
structure TaskResult where
  role : Role
  task : Nat
  exit : Exit
  log : List TaskEvent
  deriving DecidableEq, Repr

/-- Modelled from the spec: `Context::StartPhaseThreadSafe` is not part of the
sources at hand; each call creates a new, distinct child node of the phase it is
called on, even if the name repeats. The child created by task `task` of sweep
point `point` is `PhaseId.child point task`. -/
def StartPhaseThreadSafe (point task : Nat) : PhaseId := .child point task

/-- The assignments `ctx._current = phase; ctx._metrics = &phase->metrics();`
on the task's clone of the root context. -/
def taskContext (context : ContextMPMC) (phase : PhaseId) : ContextMPMC :=
  { context with _current := phase, _metrics := phase }

/-- The calls a task has made when it enters its measuring loop. -/
def entryLog (role : Role) (context : ContextMPMC) (point task : Nat) : List TaskEvent :=
  [.StartPhaseThreadSafe context._current role.phaseName (StartPhaseThreadSafe point task),
    .InitializeRole role (taskContext context (StartPhaseThreadSafe point task)),
    .StartCollectingMetrics (StartPhaseThreadSafe point task)]

/-- The loop state a task starts its measuring loop with. -/
def loopStart (iterations nanoseconds : Int) (log : List TaskEvent) : LoopState :=
  { iterations := iterations, nanoseconds := nanoseconds, calls := 0, log := log }

/-- The body of the lambda started by `std::async` for every producer and for
every consumer (the two lambdas differ only in the names `producer` /
`consumer`). `context` is the root context captured by reference, `iterations`
and `nanoseconds` are captured by value. -/
def runTask (fuel : Nat) (env : TaskEnv) (role : Role) (context : ContextMPMC)
    (point task : Nat) (iterations nanoseconds : Int) : Option TaskResult :=
  -- Clone the context, create and start the thread safe phase
  let phase := StartPhaseThreadSafe point task
  let log0 : List TaskEvent := [.StartPhaseThreadSafe context._current role.phaseName phase]
  -- Update the task's context
  let ctx : ContextMPMC := taskContext context phase
  -- Call the initialize method
  let log1 := log0 ++ [.InitializeRole role ctx]
  if env.InitializeThrows then some ⟨role, task, .exception, log1⟩
  else
    let log2 := log1 ++ [.StartCollectingMetrics ctx._current]
    match workerLoop role ctx env fuel (loopStart iterations nanoseconds log2) with
    | none => none
    | some (.exception, s) => some ⟨role, task, .exception, s.log⟩
    | some (.normal, s) =>
      let log3 := s.log ++ [.StopCollectingMetrics ctx._current]
      -- Call the cleanup method
      let log4 := log3 ++ [.CleanupRole role ctx]
      if env.CleanupThrows then some ⟨role, task, .exception, log4⟩
      else
        some ⟨role, task, .normal,
          log4 ++ [.UpdateBenchmarkMetrics ctx._current, .StopPhase phase]⟩

/-- Number of `Run*` calls in a task log. -/
def runCalls (log : List TaskEvent) : Nat :=
  log.countP fun e => match e with
    | .RunRole _ _ => true
    | _ => false

/-- Number of `AddIterations(1)` calls on the metrics of phase `p` in a task log. -/
def addIterationsCalls (p : PhaseId) (log : List TaskEvent) : Nat :=
  log.countP fun e => match e with
    | .AddIterations q n => decide (q = p ∧ n = 1)
    | _ => false

/-- The iterations recorded on the metrics of phase `p` by a task log: the sum
of the arguments of its `AddIterations` calls on these metrics. -/
def recordedIterations (p : PhaseId) (log : List TaskEvent) : Nat :=
  (log.filterMap fun e => match e with
    | .AddIterations q n => if q = p then some n else none
    | _ => none).sum

/-- The calls of `n` passes of the measuring loop of a task of the given role
with context `ctx`: each pass is `AddIterations(1)` on the metrics of `ctx`
followed by the `Run*` hook of the role on `ctx`. -/
def passLog (role : Role) (ctx : ContextMPMC) (n : Nat) : List TaskEvent :=
  (List.replicate n [TaskEvent.AddIterations ctx._metrics 1, .RunRole role ctx]).flatten

/-- The calls a task makes after its measuring loop has ended normally: the
last two are made only when the `Cleanup*` hook returns. -/
def exitLog (env : TaskEnv) (role : Role) (ctx : ContextMPMC) : List TaskEvent :=
  [.StopCollectingMetrics ctx._current, .CleanupRole role ctx]
  ++ if env.CleanupThrows then []
     else [.UpdateBenchmarkMetrics ctx._current, .StopPhase ctx._current]

/-- Cumulative measured time of the first `j` calls of `Run*`. -/
def elapsed (d : Nat → Int) : Nat → Int
  | 0 => 0
  | j + 1 => elapsed d j + d j

/-- The loop variables after `j` passes in which `Run*` returned (the log is
left as it is). -/
def stateAt (env : TaskEnv) (s : LoopState) : Nat → LoopState
  | 0 => s
  | j + 1 => afterRun env (stateAt env s j)

/-! ## The benchmark and the orchestrating thread -/

/-- Modelled from the spec: the class `Settings` is not part of the sources at
hand; `Launch` reads `attempts()` (an `int`; the spec gives `attempts ≥ 1` as an
invariant of the settings), `iterations()` and `nanoseconds()` (both `int64_t`)
and `params()`, and appends to `_params`. -/
structure Settings where
  _attempts : Int
  _iterations : Int
  _nanoseconds : Int
  _params : List (Int × Int × Int)
  deriving DecidableEq, Repr

/-- Modelled from the spec: the class `SettingsMPMC` is not part of the sources
at hand; `Launch` reads `mpmc()` and appends to `_mpmc`. -/
structure SettingsMPMC where
  _mpmc : List (Int × Int)
  deriving DecidableEq, Repr

/-- Calls and writes made by the thread that runs `Launch`, in program order. -/
inductive Event
  | InitBenchmarkContext (ctx : ContextMPMC)
  | onLaunching (ctx : ContextMPMC) (attempt : Int)
  | Initialize (ctx : ContextMPMC)
  | StartCollectingMetrics (phase : PhaseId)
  | AddIterations (metrics : PhaseId) (n : Nat)
  | async (role : Role) (task : Nat)
  | wait (task : Nat)
  | clearFutures
  | StopCollectingMetrics (phase : PhaseId)
  | Cleanup (ctx : ContextMPMC)
  | onLaunched (ctx : ContextMPMC) (attempt : Int)
  | ChooseBestWorstMetrics (phase : PhaseId)
  | UpdateBenchmarkThreads
  | UpdateBenchmarkNames
  | setLaunched
  deriving DecidableEq, Repr

/-- An element of `_futures`: the task started by one `std::async` call, with
what its lambda captured (`context` by reference, the budgets by value). -/
structure Future where
  role : Role
  point : Nat
  task : Nat
  context : ContextMPMC
  iterations : Int
  nanoseconds : Int
  deriving DecidableEq, Repr

/-- The members of `BenchmarkMPMC` used by `Launch`, together with what an
observer records: the calls of the orchestrating thread (`log`), the finished
tasks (`finished`) and the number of sweep points started so far (`points`). -/
structure BenchmarkMPMC where
  _settings : Settings
  _settings_mpmc : SettingsMPMC
  _futures : List Future
  _launched : Bool
  log : List Event
  finished : List TaskResult
  points : Nat
  deriving DecidableEq, Repr

/-- A benchmark as constructed from its settings, before `Launch`. -/
def BenchmarkMPMC.create (attempts iterations nanoseconds : Int)
    (params : List (Int × Int × Int)) (mpmc : List (Int × Int)) : BenchmarkMPMC :=
  { _settings := ⟨attempts, iterations, nanoseconds, params⟩
    _settings_mpmc := ⟨mpmc⟩
    _futures := []
    _launched := false
    log := []
    finished := []
    points := 0 }

/-- Appends one call to the log of the orchestrating thread. -/
def BenchmarkMPMC.call (b : BenchmarkMPMC) (e : Event) : BenchmarkMPMC :=
  { b with log := b.log ++ [e] }

/-- Oracles for a whole launch: whether the root `Initialize` / `Cleanup` hook
throws at the `n`-th sweep point, and the oracle of task `t` of sweep point `n`.
The handler's notifications and the library's own calls are taken to return. -/
structure Env where
  InitializeThrows : Nat → Bool
  CleanupThrows : Nat → Bool
  task : Nat → Nat → TaskEnv

/-- The statement `if (_mpmc.empty()) _mpmc.emplace_back(1, 1);`. -/
def normalizeMpmc (mpmc : List (Int × Int)) : List (Int × Int) :=
  if mpmc.isEmpty then mpmc ++ [(1, 1)] else mpmc

/-- The statement `if (_params.empty()) _params.emplace_back(-1, -1, -1);`. -/
def normalizeParams (params : List (Int × Int × Int)) : List (Int × Int × Int) :=
  if params.isEmpty then params ++ [(-1, -1, -1)] else params

/-- Modelled from the spec: `InitBenchmarkContext` is not part of the sources at
hand; it points the context at the root phase of its pair and parameter tuple
(the phase that collects the repeated attempts of that sweep point) and at that
phase's metrics. -/
def InitBenchmarkContext (context : ContextMPMC) : ContextMPMC :=
  let phase := PhaseId.root (context.producers, context.consumers)
    (context.x, context.y, context.z)
  { context with _current := phase, _metrics := phase }

/-- The loop `for (int i = 0; i < count; ++i) _futures.push_back(std::async(...))`.
The task started by a call is identified by its position in `_futures`. -/
def startTasks (role : Role) (context : ContextMPMC) (point : Nat)
    (iterations nanoseconds : Int) (count : Int) (b : BenchmarkMPMC) : BenchmarkMPMC :=
  (List.range count.toNat).foldl
    (fun b _ =>
      let task := b._futures.length
      { b with
        _futures := b._futures ++ [⟨role, point, task, context, iterations, nanoseconds⟩]
        log := b.log ++ [.async role task] })
    b

/-- The task behind a future, run to its end. -/
def Future.result (fuel : Nat) (env : Env) (f : Future) : Option TaskResult :=
  runTask fuel (env.task f.point f.task) f.role f.context f.point f.task
    f.iterations f.nanoseconds

/-- The loop `for (auto& future : _futures) if (future.valid()) future.wait();`.
Every future returned by `std::async` is valid. `wait()` returns when the task
has ended, by returning or by throwing, and does not rethrow; it never returns
when the task does not end. -/
def waitAll (fuel : Nat) (env : Env) : List Future → BenchmarkMPMC → Option BenchmarkMPMC
  | [], b => some b
  | f :: fs, b =>
    match f.result fuel env with
    | none => none
    | some r =>
      waitAll fuel env fs { b with log := b.log ++ [.wait f.task], finished := b.finished ++ [r] }

/-- The body of the innermost loop of `Launch`: one sweep point. -/
def runPoint (fuel : Nat) (env : Env) (attempt : Int) (mpmc : Int × Int)
    (param : Int × Int × Int) (b : BenchmarkMPMC) : Option (Exit × BenchmarkMPMC) :=
  let producers := mpmc.1
  let consumers := mpmc.2
  let point := b.points
  -- Prepare benchmark context
  let context : ContextMPMC :=
    ⟨producers, consumers, param.1, param.2.1, param.2.2, .null, .null⟩
  -- Initialize the current benchmark
  let context := InitBenchmarkContext context
  let b := { b with points := point + 1 }
  let b := b.call (.InitBenchmarkContext context)
  -- Call launching notification
  let b := b.call (.onLaunching context attempt)
  -- Call initialize benchmark method
  let b := b.call (.Initialize context)
  if env.InitializeThrows point then some (.exception, b)
  else
    let iterations := b._settings._iterations
    let nanoseconds := b._settings._nanoseconds
    -- Start benchmark root phase iteration
    let b := b.call (.StartCollectingMetrics context._current)
    let b := b.call (.AddIterations context._metrics 1)
    -- Start benchmark producers as futures
    let b := startTasks .producer context point iterations nanoseconds producers b
    -- Start benchmark consumers as futures
    let b := startTasks .consumer context point iterations nanoseconds consumers b
    -- Wait for all futures
    match waitAll fuel env b._futures b with
    | none => none
    | some b =>
      -- Clear futures collection
      let b := { b with _futures := [] }
      let b := b.call .clearFutures
      -- Stop benchmark root phase iteration
      let b := b.call (.StopCollectingMetrics context._current)
      -- Call cleanup benchmark method
      let b := b.call (.Cleanup context)
      if env.CleanupThrows point then some (.exception, b)
      else
        -- Call launched notification
        let b := b.call (.onLaunched context attempt)
        -- Update benchmark root phase metrics
        let b := b.call (.ChooseBestWorstMetrics context._current)
        some (.normal, b)

/-- The loop `for (auto param : _settings.params())`. -/
def paramsLoop (fuel : Nat) (env : Env) (attempt : Int) (mpmc : Int × Int) :
    List (Int × Int × Int) → BenchmarkMPMC → Option (Exit × BenchmarkMPMC)
  | [], b => some (.normal, b)
  | param :: rest, b =>
    match runPoint fuel env attempt mpmc param b with
    | none => none
    | some (.exception, b) => some (.exception, b)
    | some (.normal, b) => paramsLoop fuel env attempt mpmc rest b

/-- The loop `for (auto mpmc : _settings_mpmc.mpmc())`. -/
def mpmcLoop (fuel : Nat) (env : Env) (attempt : Int) :
    List (Int × Int) → BenchmarkMPMC → Option (Exit × BenchmarkMPMC)
  | [], b => some (.normal, b)
  | mpmc :: rest, b =>
    match paramsLoop fuel env attempt mpmc b._settings._params b with
    | none => none
    | some (.exception, b) => some (.exception, b)
    | some (.normal, b) => mpmcLoop fuel env attempt rest b

/-- The loop `for (int attempt = 1; attempt <= _settings.attempts(); ++attempt)`,
entered with the current value of `attempt`. The first argument is the fuel of
the worker loops, the second the fuel of this loop. -/
def attemptLoop (fuel : Nat) (env : Env) :
    Nat → Int → BenchmarkMPMC → Option (Exit × BenchmarkMPMC)
  | 0, _, _ => none
  | n + 1, attempt, b =>
    if attempt ≤ b._settings._attempts then
      -- Run benchmark at least for 1 producer and 1 consumer
      let b := { b with _settings_mpmc := ⟨normalizeMpmc b._settings_mpmc._mpmc⟩ }
      -- Run benchmark at least once
      let b := { b with _settings := { b._settings with
                          _params := normalizeParams b._settings._params } }
      match mpmcLoop fuel env attempt b._settings_mpmc._mpmc b with
      | none => none
      | some (.exception, b) => some (.exception, b)
      | some (.normal, b) => attemptLoop fuel env n (wrap32 (attempt + 1)) b
    else some (.normal, b)

/-- The method `BenchmarkMPMC::Launch(LauncherHandler* handler)`. -/
def Launch (fuel : Nat) (env : Env) (b : BenchmarkMPMC) : Option (Exit × BenchmarkMPMC) :=
  match attemptLoop fuel env fuel 1 b with
  | none => none
  | some (.exception, b) => some (.exception, b)
  | some (.normal, b) =>
    -- Update benchmark threads
    let b := b.call .UpdateBenchmarkThreads
    -- Update benchmark names
    let b := b.call .UpdateBenchmarkNames
    -- Update benchmark launched flag
    let b := { b with _launched := true }
    some (.normal, b.call .setLaunched)

/-! ## Reading the logs -/

/-- The arguments `(attempt, (producers, consumers), (x, y, z))` of the
`onLaunching` calls of a log, in order. -/
def launchingCalls (log : List Event) : List (Int × (Int × Int) × (Int × Int × Int)) :=
  log.filterMap fun e => match e with
    | .onLaunching c a => some (a, (c.producers, c.consumers), (c.x, c.y, c.z))
    | _ => none

/-- The arguments `(attempt, (producers, consumers), (x, y, z))` of the
`onLaunched` calls of a log, in order. -/
def launchedCalls (log : List Event) : List (Int × (Int × Int) × (Int × Int × Int)) :=
  log.filterMap fun e => match e with
    | .onLaunched c a => some (a, (c.producers, c.consumers), (c.x, c.y, c.z))
    | _ => none

/-- The handler notifications of a log, in order. -/
def handlerCalls (log : List Event) : List Event :=
  log.filter fun e => match e with
    | .onLaunching _ _ => true
    | .onLaunched _ _ => true
    | _ => false

/-- The iterations added to the metrics of phase `p` by the calls of a log of
the orchestrating thread. -/
def addedIterations (p : PhaseId) (log : List Event) : Nat :=
  (log.filterMap fun e => match e with
    | .AddIterations q n => if q = p then some n else none
    | _ => none).sum

/-- The child phases created in a task log: `(parent, name, child)`. -/
def createdPhases (log : List TaskEvent) : List (PhaseId × String × PhaseId) :=
  log.filterMap fun e => match e with
    | .StartPhaseThreadSafe p n c => some (p, n, c)
    | _ => none

/-- The lexicographic enumeration of the sweep space: attempts `1..A` outermost,
then the pairs in list order, then the parameter tuples in list order. -/
def sweep (A : Nat) (pairs : List (Int × Int)) (tuples : List (Int × Int × Int)) :
    List (Int × (Int × Int) × (Int × Int × Int)) :=
  (List.range A).flatMap fun a =>
    pairs.flatMap fun m => tuples.map fun p => ((a : Int) + 1, m, p)

/-- The root context of a sweep point with the given pair and parameter tuple. -/
def pointContext (mpmc : Int × Int) (param : Int × Int × Int) : ContextMPMC :=
  InitBenchmarkContext ⟨mpmc.1, mpmc.2, param.1, param.2.1, param.2.2, .null, .null⟩

/-- The calls of the orchestrating thread during one sweep point in which the
root hooks return: `p` producer tasks and `c` consumer tasks are started. -/
def pointLog (attempt : Int) (mpmc : Int × Int) (param : Int × Int × Int) : List Event :=
  let ctx := pointContext mpmc param
  [.InitBenchmarkContext ctx, .onLaunching ctx attempt, .Initialize ctx,
    .StartCollectingMetrics ctx._current, .AddIterations ctx._metrics 1]
  ++ (List.range mpmc.1.toNat).map (fun i => Event.async .producer i)
  ++ (List.range mpmc.2.toNat).map (fun i => Event.async .consumer (mpmc.1.toNat + i))
  ++ (List.range (mpmc.1.toNat + mpmc.2.toNat)).map Event.wait
  ++ [.clearFutures, .StopCollectingMetrics ctx._current, .Cleanup ctx,
    .onLaunched ctx attempt, .ChooseBestWorstMetrics ctx._current]

/-- The futures in `_futures` when the orchestrating thread starts to wait:
the producers first, then the consumers. -/
def pointFutures (point : Nat) (context : ContextMPMC) (iterations nanoseconds : Int)
    (mpmc : Int × Int) : List Future :=
  (List.range mpmc.1.toNat).map
      (fun i => (⟨.producer, point, i, context, iterations, nanoseconds⟩ : Future))
  ++ (List.range mpmc.2.toNat).map
      (fun i => (⟨.consumer, point, mpmc.1.toNat + i, context, iterations, nanoseconds⟩ : Future))

/-- The calls of the orchestrating thread during a launch that sweeps `A`
attempts, the given pairs and the given tuples and in which the root hooks
return. -/
def launchLog (A : Nat) (pairs : List (Int × Int)) (tuples : List (Int × Int × Int)) :
    List Event :=
  (sweep A pairs tuples).flatMap fun q => pointLog q.1 q.2.1 q.2.2

/-- What a stretch of `Launch` that returned has done to the benchmark: it has
appended `l` to the log, left the settings and the launched flag as they were,
and left `_futures` empty. -/
structure Ran (b b1 : BenchmarkMPMC) (l : List Event) : Prop where
  log : b1.log = b.log ++ l
  settings : b1._settings = b._settings
  settings_mpmc : b1._settings_mpmc = b._settings_mpmc
  futures : b1._futures = []
  launched : b1._launched = b._launched

/-- An oracle for a task whose hooks never throw, whose flag is never set and
whose every `Run*` call is measured as `d` nanoseconds. -/
def TaskEnv.quiet (d : Int) : TaskEnv :=
  { InitializeThrows := false, RunThrows := fun _ => false, CleanupThrows := false,
    duration := fun _ => d, canceled := fun _ => false }

/-- An oracle for a task whose hooks never throw and whose flag is found set
from the check numbered `c` on. -/
def TaskEnv.canceledFrom (c : Nat) : TaskEnv :=
  { InitializeThrows := false, RunThrows := fun _ => false, CleanupThrows := false,
    duration := fun _ => 0, canceled := fun j => decide (c ≤ j) }

/-- An oracle for a launch in which no hook throws, no flag is set and every
`Run*` call is measured as `d` nanoseconds. -/
def Env.quiet (d : Int) : Env :=
  { InitializeThrows := fun _ => false, CleanupThrows := fun _ => false,
    task := fun _ _ => TaskEnv.quiet d }

/-- An oracle for a launch in which the root hooks return and every task fails
in its first call of `Run*` (or in `Cleanup*` when it makes no call). -/
def Env.workersThrow : Env :=
  { InitializeThrows := fun _ => false, CleanupThrows := fun _ => false,
    task := fun _ _ =>
      { InitializeThrows := false, RunThrows := fun _ => true, CleanupThrows := true,
        duration := fun _ => 0, canceled := fun _ => false } }

/-- An oracle for a launch in which the root `Initialize` hook throws. -/
def Env.initializeThrows : Env :=
  { InitializeThrows := fun _ => true, CleanupThrows := fun _ => false,
    task := fun _ _ => TaskEnv.quiet 0 }

/-- An oracle for a launch in which the root `Cleanup` hook throws. -/
def Env.cleanupThrows : Env :=
  { InitializeThrows := fun _ => false, CleanupThrows := fun _ => true,
    task := fun _ _ => TaskEnv.quiet 0 }

/-- The context of the examples: two producers, three consumers and the
parameter tuple (100, -1, -1). -/
def ctx23 : ContextMPMC := pointContext (2, 3) (100, -1, -1)

/-! ## Facts about the machine integers and the logs -/

theorem wrap64_eq (x : Int) (h1 : -2 ^ 63 ≤ x) (h2 : x < 2 ^ 63) : wrap64 x = x := by
  unfold wrap64
  omega

theorem wrap32_eq (x : Int) (h1 : -2 ^ 31 ≤ x) (h2 : x < 2 ^ 31) : wrap32 x = x := by
  unfold wrap32
  omega

theorem runCalls_append (l1 l2 : List TaskEvent) :
    runCalls (l1 ++ l2) = runCalls l1 + runCalls l2 := by
  simp [runCalls, List.countP_append]

theorem addIterationsCalls_append (p : PhaseId) (l1 l2 : List TaskEvent) :
    addIterationsCalls p (l1 ++ l2) = addIterationsCalls p l1 + addIterationsCalls p l2 := by
  simp [addIterationsCalls, List.countP_append]

theorem runCalls_callRun (role : Role) (ctx : ContextMPMC) (env : TaskEnv) (s : LoopState) :
    runCalls (afterRun env (callRun role ctx s)).log = runCalls s.log + 1 := by
  simp [afterRun, callRun, runCalls, List.countP_append, List.countP_cons]

theorem addIterationsCalls_callRun (role : Role) (ctx : ContextMPMC) (env : TaskEnv)
    (s : LoopState) :
    addIterationsCalls ctx._metrics (afterRun env (callRun role ctx s)).log
      = addIterationsCalls ctx._metrics s.log + 1 := by
  simp [afterRun, callRun, addIterationsCalls, List.countP_append, List.countP_cons]

/-! ## The measuring loop -/

/-- With no time left, a loop that is neither cancelled nor interrupted by a
throwing hook makes as many passes as there are iterations left. -/
theorem workerLoop_iterations (role : Role) (ctx : ContextMPMC) (env : TaskEnv)
    (hc : ∀ j, env.canceled j = false) (hr : ∀ j, env.RunThrows j = false) :
    ∀ (n fuel : Nat) (s : LoopState), s.iterations.toNat = n → s.iterations < 2 ^ 63 →
      s.nanoseconds ≤ 0 → n < fuel →
      ∃ s1, workerLoop role ctx env fuel s = some (.normal, s1)
        ∧ runCalls s1.log = runCalls s.log + n
        ∧ addIterationsCalls ctx._metrics s1.log = addIterationsCalls ctx._metrics s.log + n := by
  intro n
  induction n with
  | zero =>
    intro fuel s hn _ hns hf
    obtain ⟨f, rfl⟩ : ∃ f, fuel = f + 1 := ⟨fuel - 1, by omega⟩
    have hi : ¬ (0 < s.iterations) := by omega
    have hn0 : ¬ (0 < s.nanoseconds) := by omega
    refine ⟨s, ?_, by simp, by simp⟩
    simp [workerLoop, loopCond, hi, hn0]
  | succ n ih =>
    intro fuel s hn hlt hns hf
    obtain ⟨f, rfl⟩ : ∃ f, fuel = f + 1 := ⟨fuel - 1, by omega⟩
    have hi : 0 < s.iterations := by omega
    have hn0 : ¬ (0 < s.nanoseconds) := by omega
    have hw : wrap64 (s.iterations - 1) = s.iterations - 1 := wrap64_eq _ (by omega) (by omega)
    have hstep : workerLoop role ctx env (f + 1) s
        = workerLoop role ctx env f (afterRun env (callRun role ctx s)) := by
      simp [workerLoop, loopCond, hi, hc, hr]
    obtain ⟨s1, h1, h2, h3⟩ := ih f (afterRun env (callRun role ctx s))
      (by simp [afterRun, callRun, hw]; omega)
      (by simp [afterRun, callRun, hw]; omega)
      (by simp [afterRun, callRun, hn0]; omega)
      (by omega)
    refine ⟨s1, by rw [hstep, h1], ?_, ?_⟩
    · rw [h2, runCalls_callRun]; omega
    · rw [h3, addIterationsCalls_callRun]; omega

/-- While time is left, a loop that is neither cancelled nor interrupted makes
one pass per measured duration until the cumulative measured time reaches the
budget at pass `k`, and then goes on for the iterations that are left. -/
theorem workerLoop_budgets (role : Role) (ctx : ContextMPMC) (env : TaskEnv) (N T : Int)
    (k : Nat)
    (hc : ∀ j, env.canceled j = false) (hr : ∀ j, env.RunThrows j = false)
    (hk : T ≤ elapsed env.duration k) (hlt : ∀ j, j < k → elapsed env.duration j < T)
    (hrange : ∀ j, j ≤ k →
      -2 ^ 63 ≤ T - elapsed env.duration j ∧ T - elapsed env.duration j < 2 ^ 63)
    (hN : N < 2 ^ 63) (hNk : -2 ^ 63 ≤ N - k) :
    ∀ (n fuel : Nat) (s : LoopState), s.calls + n = k →
      s.nanoseconds = T - elapsed env.duration s.calls → s.iterations = N - s.calls →
      n + (N - k).toNat < fuel →
      ∃ s1, workerLoop role ctx env fuel s = some (.normal, s1)
        ∧ runCalls s1.log = runCalls s.log + (n + (N - k).toNat)
        ∧ addIterationsCalls ctx._metrics s1.log
            = addIterationsCalls ctx._metrics s.log + (n + (N - k).toNat) := by
  intro n
  induction n with
  | zero =>
    intro fuel s hcalls hns hit hf
    have hsk : s.calls = k := by omega
    have := workerLoop_iterations role ctx env hc hr (N - k).toNat fuel s
      (by rw [hit, hsk]) (by rw [hit]; omega) (by rw [hns, hsk]; omega) (by omega)
    simpa using this
  | succ n ih =>
    intro fuel s hcalls hns hit hf
    obtain ⟨f, rfl⟩ : ∃ f, fuel = f + 1 := ⟨fuel - 1, by omega⟩
    have hpos : 0 < s.nanoseconds := by
      have := hlt s.calls (by omega)
      omega
    have hr1 := hrange (s.calls + 1) (by omega)
    have he : elapsed env.duration (s.calls + 1)
        = elapsed env.duration s.calls + env.duration s.calls := rfl
    have hw1 : wrap64 (s.nanoseconds - env.duration s.calls)
        = T - elapsed env.duration (s.calls + 1) := by
      rw [wrap64_eq _ (by omega) (by omega)]; omega
    have hw2 : wrap64 (s.iterations - 1) = N - (s.calls + 1 : Nat) := by
      rw [wrap64_eq _ (by omega) (by omega)]; omega
    have hstep : workerLoop role ctx env (f + 1) s
        = workerLoop role ctx env f (afterRun env (callRun role ctx s)) := by
      simp [workerLoop, loopCond, hpos, hc, hr]
    obtain ⟨s1, h1, h2, h3⟩ := ih f (afterRun env (callRun role ctx s))
      (by simp [afterRun, callRun]; omega)
      (by simp [afterRun, callRun, hpos, hw1])
      (by simp only [afterRun, callRun, hw2])
      (by omega)
    refine ⟨s1, by rw [hstep, h1], ?_, ?_⟩
    · rw [h2, runCalls_callRun]; omega
    · rw [h3, addIterationsCalls_callRun]; omega

/-! ## Worker tasks -/

/-- A task whose `Initialize*` hook returns ends as soon as its measuring loop
does, and the calls after the loop are neither `Run*` nor `AddIterations`. -/
theorem runTask_of_loop (fuel : Nat) (env : TaskEnv) (role : Role) (context : ContextMPMC)
    (point task : Nat) (N T : Int) (hi : env.InitializeThrows = false) (e : Exit)
    (s1 : LoopState)
    (h : workerLoop role (taskContext context (StartPhaseThreadSafe point task)) env fuel
      (loopStart N T (entryLog role context point task)) = some (e, s1)) :
    ∃ r, runTask fuel env role context point task N T = some r
      ∧ runCalls r.log = runCalls s1.log
      ∧ addIterationsCalls (StartPhaseThreadSafe point task) r.log
          = addIterationsCalls (StartPhaseThreadSafe point task) s1.log := by
  simp only [entryLog] at h
  unfold runTask
  simp only [hi, Bool.false_eq_true, if_false, List.singleton_append, List.cons_append,
    List.nil_append, taskContext] at h ⊢
  rw [h]
  cases e with
  | exception => exact ⟨_, rfl, rfl, rfl⟩
  | normal =>
    by_cases hcl : env.CleanupThrows = true
    · simp [hcl, runCalls, addIterationsCalls, List.countP_append, List.countP_cons]
    · simp [hcl, runCalls, addIterationsCalls, List.countP_append, List.countP_cons]

theorem runCalls_entryLog (role : Role) (context : ContextMPMC) (point task : Nat) :
    runCalls (entryLog role context point task) = 0 := by
  simp [entryLog, runCalls, List.countP_cons]

theorem addIterationsCalls_entryLog (p : PhaseId) (role : Role) (context : ContextMPMC)
    (point task : Nat) : addIterationsCalls p (entryLog role context point task) = 0 := by
  simp [entryLog, addIterationsCalls, List.countP_cons]

theorem passLog_succ (role : Role) (ctx : ContextMPMC) (n : Nat) :
    passLog role ctx (n + 1)
      = [.AddIterations ctx._metrics 1, .RunRole role ctx] ++ passLog role ctx n := by
  simp [passLog, List.replicate_succ]

/-- With no time left, a loop that is neither cancelled nor interrupted appends
exactly one pass per iteration left to the log. -/
theorem workerLoop_iterations_log (role : Role) (ctx : ContextMPMC) (env : TaskEnv)
    (hc : ∀ j, env.canceled j = false) (hr : ∀ j, env.RunThrows j = false) :
    ∀ (n fuel : Nat) (s : LoopState), s.iterations.toNat = n → s.iterations < 2 ^ 63 →
      s.nanoseconds ≤ 0 → n < fuel →
      ∃ s1, workerLoop role ctx env fuel s = some (.normal, s1)
        ∧ s1.log = s.log ++ passLog role ctx n := by
  intro n
  induction n with
  | zero =>
    intro fuel s hn _ hns hf
    obtain ⟨f, rfl⟩ : ∃ f, fuel = f + 1 := ⟨fuel - 1, by omega⟩
    have hi : ¬ (0 < s.iterations) := by omega
    have hn0 : ¬ (0 < s.nanoseconds) := by omega
    refine ⟨s, ?_, by simp [passLog]⟩
    simp [workerLoop, loopCond, hi, hn0]
  | succ n ih =>
    intro fuel s hn hlt hns hf
    obtain ⟨f, rfl⟩ : ∃ f, fuel = f + 1 := ⟨fuel - 1, by omega⟩
    have hi : 0 < s.iterations := by omega
    have hn0 : ¬ (0 < s.nanoseconds) := by omega
    have hw : wrap64 (s.iterations - 1) = s.iterations - 1 := wrap64_eq _ (by omega) (by omega)
    have hstep : workerLoop role ctx env (f + 1) s
        = workerLoop role ctx env f (afterRun env (callRun role ctx s)) := by
      simp [workerLoop, loopCond, hi, hc, hr]
    obtain ⟨s1, h1, h2⟩ := ih f (afterRun env (callRun role ctx s))
      (by simp [afterRun, callRun, hw]; omega)
      (by simp [afterRun, callRun, hw]; omega)
      (by simp [afterRun, callRun, hn0]; omega)
      (by omega)
    refine ⟨s1, by rw [hstep, h1], ?_⟩
    rw [h2, passLog_succ]
    simp [afterRun, callRun]

/-- A task whose `Initialize*` hook returns and whose measuring loop ends
normally makes, after the loop, the calls of `exitLog` and no other. -/
theorem runTask_log_of_loop (fuel : Nat) (env : TaskEnv) (role : Role)
    (context : ContextMPMC) (point task : Nat) (N T : Int)
    (hi : env.InitializeThrows = false) (s1 : LoopState)
    (h : workerLoop role (taskContext context (StartPhaseThreadSafe point task)) env fuel
      (loopStart N T (entryLog role context point task)) = some (.normal, s1)) :
    ∃ r, runTask fuel env role context point task N T = some r
      ∧ r.log = s1.log
          ++ exitLog env role (taskContext context (StartPhaseThreadSafe point task)) := by
  simp only [entryLog] at h
  unfold runTask
  simp only [hi, Bool.false_eq_true, if_false, List.singleton_append, List.cons_append,
    List.nil_append, taskContext] at h ⊢
  rw [h]
  by_cases hcl : env.CleanupThrows = true
  · simp [hcl, exitLog]
  · simp [hcl, exitLog]

theorem runCalls_passLog (role : Role) (ctx : ContextMPMC) (n : Nat) :
    runCalls (passLog role ctx n) = n := by
  induction n with
  | zero => simp [passLog, runCalls]
  | succ n ih =>
    rw [passLog_succ, runCalls_append, ih]
    simp [runCalls, List.countP_cons]
    omega

theorem addIterationsCalls_passLog (role : Role) (ctx : ContextMPMC) (n : Nat) :
    addIterationsCalls ctx._metrics (passLog role ctx n) = n := by
  induction n with
  | zero => simp [passLog, addIterationsCalls]
  | succ n ih =>
    rw [passLog_succ, addIterationsCalls_append, ih]
    simp [addIterationsCalls, List.countP_cons]
    omega

theorem recordedIterations_append (p : PhaseId) (l1 l2 : List TaskEvent) :
    recordedIterations p (l1 ++ l2) = recordedIterations p l1 + recordedIterations p l2 := by
  simp [recordedIterations, List.filterMap_append, List.sum_append]

theorem recordedIterations_passLog (role : Role) (ctx : ContextMPMC) (n : Nat) :
    recordedIterations ctx._metrics (passLog role ctx n) = n := by
  induction n with
  | zero => simp [passLog, recordedIterations]
  | succ n ih =>
    rw [passLog_succ, recordedIterations_append, ih]
    simp [recordedIterations, List.filterMap_cons]
    omega

theorem mem_passLog (role : Role) (ctx : ContextMPMC) (n : Nat) (ev : TaskEvent)
    (h : ev ∈ passLog role ctx n) :
    ev = .AddIterations ctx._metrics 1 ∨ ev = .RunRole role ctx := by
  induction n with
  | zero => simp [passLog] at h
  | succ n ih =>
    rw [passLog_succ] at h
    simp only [List.mem_append, List.mem_cons, List.mem_singleton, List.not_mem_nil,
      or_false] at h
    rcases h with (h | h) | h
    · exact Or.inl h
    · exact Or.inr h
    · exact ih h

theorem runCalls_exitLog (env : TaskEnv) (role : Role) (ctx : ContextMPMC) :
    runCalls (exitLog env role ctx) = 0 := by
  by_cases h : env.CleanupThrows = true <;>
    simp [exitLog, h, runCalls, List.countP_cons]

theorem addIterationsCalls_exitLog (p : PhaseId) (env : TaskEnv) (role : Role)
    (ctx : ContextMPMC) : addIterationsCalls p (exitLog env role ctx) = 0 := by
  by_cases h : env.CleanupThrows = true <;>
    simp [exitLog, h, addIterationsCalls, List.countP_cons]

theorem recordedIterations_exitLog (p : PhaseId) (env : TaskEnv) (role : Role)
    (ctx : ContextMPMC) : recordedIterations p (exitLog env role ctx) = 0 := by
  by_cases h : env.CleanupThrows = true <;>
    simp [exitLog, h, recordedIterations, List.filterMap_cons]

theorem recordedIterations_entryLog (p : PhaseId) (role : Role) (context : ContextMPMC)
    (point task : Nat) : recordedIterations p (entryLog role context point task) = 0 := by
  simp [entryLog, recordedIterations, List.filterMap_cons]

/-- C3: with an iteration budget `N`, no time budget (`T ≤ 0`), a flag that is
never set and hooks that return, every producer task and every consumer task
ends, and the calls it has made are exactly: the three calls before the loop,
then `max(N, 0)` passes, each of them `AddIterations(1)` on the metrics of the
task's own phase followed by the `Run*` hook of the task's own role on the
task's own context, then the calls after the loop. So the task calls its `Run*`
hook exactly `max(N, 0)` times and no other `Run*` hook, calls `AddIterations`
exactly `max(N, 0)` times, always with 1 and on its own metrics, and records
exactly `max(N, 0)` iterations there; for `N ≤ 0` the loop body is never
entered. -/
theorem iteration_budget_runs (fuel : Nat) (env : TaskEnv) (role : Role)
    (context : ContextMPMC) (point task : Nat) (N T : Int)
    (hT : T ≤ 0) (hN : N < 2 ^ 63) (hc : ∀ j, env.canceled j = false)
    (hi : env.InitializeThrows = false) (hr : ∀ j, env.RunThrows j = false)
    (hf : N.toNat < fuel) :
    ∃ r, runTask fuel env role context point task N T = some r
      ∧ r.log = entryLog role context point task
          ++ (List.replicate N.toNat
              [TaskEvent.AddIterations (StartPhaseThreadSafe point task) 1,
                TaskEvent.RunRole role
                  (taskContext context (StartPhaseThreadSafe point task))]).flatten
          ++ exitLog env role (taskContext context (StartPhaseThreadSafe point task))
      ∧ (runCalls r.log : Int) = max N 0
      ∧ (addIterationsCalls (StartPhaseThreadSafe point task) r.log : Int) = max N 0
      ∧ (recordedIterations (StartPhaseThreadSafe point task) r.log : Int) = max N 0
      ∧ (∀ role1 ctx1, TaskEvent.RunRole role1 ctx1 ∈ r.log →
          role1 = role ∧ ctx1 = taskContext context (StartPhaseThreadSafe point task))
      ∧ (∀ q n, TaskEvent.AddIterations q n ∈ r.log →
          q = StartPhaseThreadSafe point task ∧ n = 1)
      ∧ (N ≤ 0 → runCalls r.log = 0) := by
  obtain ⟨s1, h1, h2⟩ := workerLoop_iterations_log role
    (taskContext context (StartPhaseThreadSafe point task)) env hc hr N.toNat fuel
    (loopStart N T (entryLog role context point task)) rfl hN hT hf
  obtain ⟨r, hr1, hr2⟩ := runTask_log_of_loop fuel env role context point task N T hi _ h1
  have hm : (taskContext context (StartPhaseThreadSafe point task))._metrics
      = StartPhaseThreadSafe point task := rfl
  have hlog : r.log = entryLog role context point task
      ++ passLog role (taskContext context (StartPhaseThreadSafe point task)) N.toNat
      ++ exitLog env role (taskContext context (StartPhaseThreadSafe point task)) := by
    rw [hr2, h2]; rfl
  have hruns : runCalls r.log = N.toNat := by
    rw [hlog, runCalls_append, runCalls_append, runCalls_entryLog, runCalls_passLog,
      runCalls_exitLog]
    omega
  have hadds : addIterationsCalls (StartPhaseThreadSafe point task) r.log = N.toNat := by
    rw [hlog, addIterationsCalls_append, addIterationsCalls_append,
      addIterationsCalls_entryLog, addIterationsCalls_exitLog]
    have := addIterationsCalls_passLog role
      (taskContext context (StartPhaseThreadSafe point task)) N.toNat
    rw [hm] at this
    omega
  have hrec : recordedIterations (StartPhaseThreadSafe point task) r.log = N.toNat := by
    rw [hlog, recordedIterations_append, recordedIterations_append,
      recordedIterations_entryLog, recordedIterations_exitLog]
    have := recordedIterations_passLog role
      (taskContext context (StartPhaseThreadSafe point task)) N.toNat
    rw [hm] at this
    omega
  have hmem : ∀ ev, ev ∈ r.log →
      ev ∈ entryLog role context point task
      ∨ (ev = .AddIterations (StartPhaseThreadSafe point task) 1
          ∨ ev = .RunRole role (taskContext context (StartPhaseThreadSafe point task)))
      ∨ ev ∈ exitLog env role (taskContext context (StartPhaseThreadSafe point task)) := by
    intro ev hev
    rw [hlog] at hev
    simp only [List.mem_append] at hev
    rcases hev with (h | h) | h
    · exact Or.inl h
    · exact Or.inr (Or.inl (mem_passLog _ _ _ _ h))
    · exact Or.inr (Or.inr h)
  refine ⟨r, hr1, hlog, ?_, ?_, ?_, ?_, ?_, ?_⟩
  · rw [hruns]; omega
  · rw [hadds]; omega
  · rw [hrec]; omega
  · intro role1 ctx1 hev
    rcases hmem _ hev with h | (h | h) | h
    · simp [entryLog] at h
    · exact absurd h (by simp)
    · simp only [TaskEvent.RunRole.injEq] at h
      exact h
    · by_cases hcl : env.CleanupThrows = true <;> simp [exitLog, hcl] at h
  · intro q n hev
    rcases hmem _ hev with h | (h | h) | h
    · simp [entryLog] at h
    · simp only [TaskEvent.AddIterations.injEq] at h
      exact h
    · exact absurd h (by simp)
    · by_cases hcl : env.CleanupThrows = true <;> simp [exitLog, hcl] at h
  · intro h0; rw [hruns]; omega

/-- The scenario of the specification: an iteration budget of 100 and no time
budget give 100 passes, each `AddIterations(1)` on the producer's own metrics
followed by `RunProducer` on the producer's own context. -/
theorem iteration_budget_runs_witness :
    ∃ r, runTask 101 (TaskEnv.quiet 0) .producer ctx23 0 0 100 0 = some r
      ∧ r.log = entryLog .producer ctx23 0 0
          ++ (List.replicate (100 : Int).toNat
              [TaskEvent.AddIterations (StartPhaseThreadSafe 0 0) 1,
                TaskEvent.RunRole .producer
                  (taskContext ctx23 (StartPhaseThreadSafe 0 0))]).flatten
          ++ exitLog (TaskEnv.quiet 0) .producer (taskContext ctx23 (StartPhaseThreadSafe 0 0))
      ∧ (runCalls r.log : Int) = max 100 0
      ∧ (addIterationsCalls (StartPhaseThreadSafe 0 0) r.log : Int) = max 100 0
      ∧ (recordedIterations (StartPhaseThreadSafe 0 0) r.log : Int) = max 100 0
      ∧ (∀ role1 ctx1, TaskEvent.RunRole role1 ctx1 ∈ r.log →
          role1 = .producer ∧ ctx1 = taskContext ctx23 (StartPhaseThreadSafe 0 0))
      ∧ (∀ q n, TaskEvent.AddIterations q n ∈ r.log →
          q = StartPhaseThreadSafe 0 0 ∧ n = 1)
      ∧ ((100 : Int) ≤ 0 → runCalls r.log = 0) :=
  iteration_budget_runs 101 (TaskEnv.quiet 0) .producer ctx23 0 0 100 0
    (by decide) (by norm_num) (fun _ => rfl) rfl (fun _ => rfl) (by decide)

/-- When the measured durations are non-negative `int64_t` values and the time
budget is a positive `int64_t` value, the remaining-time counter stays within
`int64_t` up to the pass at which the budget is used up. -/
theorem remaining_time_in_range (d : Nat → Int) (T : Int) (k : Nat)
    (hT0 : 0 < T) (hT : T < 2 ^ 63) (hd : ∀ j, 0 ≤ d j ∧ d j < 2 ^ 63)
    (hlt : ∀ j, j < k → elapsed d j < T) :
    ∀ j, j ≤ k → -2 ^ 63 ≤ T - elapsed d j ∧ T - elapsed d j < 2 ^ 63 := by
  have hnn : ∀ j, 0 ≤ elapsed d j := by
    intro j
    induction j with
    | zero => simp [elapsed]
    | succ j ih => have := (hd j).1; simp only [elapsed]; omega
  intro j hj
  cases j with
  | zero => simp only [elapsed]; omega
  | succ i =>
    have h1 := hlt i (by omega)
    have h2 := hd i
    have h3 := hnn i
    simp only [elapsed]
    omega

/-- C4: with `iterations = -1`, a time budget `T` (positive, so that `k ≥ 1`),
a flag that is never set and hooks that return, a task calls `Run*` exactly `k`
times, where `k` is the least index at which the cumulative measured time
`d_1 + ... + d_k` reaches or exceeds `T`; it stops at no earlier check. The
remaining-time counter and the iteration counter are assumed to stay within
`int64_t`, as they do for non-negative durations and `k < 2^63`. -/
theorem time_budget_runs (fuel : Nat) (env : TaskEnv) (role : Role)
    (context : ContextMPMC) (point task : Nat) (T : Int) (k : Nat)
    (hc : ∀ j, env.canceled j = false)
    (hi : env.InitializeThrows = false) (hr : ∀ j, env.RunThrows j = false)
    (hk : T ≤ elapsed env.duration k) (hlt : ∀ j, j < k → elapsed env.duration j < T)
    (hrange : ∀ j, j ≤ k →
      -2 ^ 63 ≤ T - elapsed env.duration j ∧ T - elapsed env.duration j < 2 ^ 63)
    (hk63 : (k : Int) < 2 ^ 63) (hf : k < fuel) :
    ∃ r, runTask fuel env role context point task (-1) T = some r
      ∧ runCalls r.log = k
      ∧ addIterationsCalls (StartPhaseThreadSafe point task) r.log = k := by
  have h0 : (-1 - (k : Int)).toNat = 0 := by omega
  obtain ⟨s1, h1, h2, h3⟩ := workerLoop_budgets role
    (taskContext context (StartPhaseThreadSafe point task)) env (-1) T k hc hr hk hlt hrange
    (by norm_num) (by omega) k fuel (loopStart (-1) T (entryLog role context point task))
    (by simp [loopStart]) (by simp [loopStart, elapsed]) (by simp [loopStart])
    (by omega)
  obtain ⟨r, hr1, hr2, hr3⟩ := runTask_of_loop fuel env role context point task (-1) T hi _ _ h1
  simp only [taskContext, loopStart, addIterationsCalls_entryLog, runCalls_entryLog, h0] at h2 h3
  exact ⟨r, hr1, by omega, by omega⟩

/-- A time budget of 12 ns and calls measured as 5 ns each: the cumulative time
is 5, 10, 15, so the task makes 3 calls. -/
theorem time_budget_runs_witness :
    ∃ r, runTask 4 (TaskEnv.quiet 5) .consumer ctx23 0 0 (-1) 12 = some r
      ∧ runCalls r.log = 3
      ∧ addIterationsCalls (StartPhaseThreadSafe 0 0) r.log = 3 :=
  time_budget_runs 4 (TaskEnv.quiet 5) .consumer ctx23 0 0 12 3
    (fun _ => rfl) rfl (fun _ => rfl) (by decide)
    (by intro j hj; interval_cases j <;> decide)
    (by intro j hj; interval_cases j <;> simp [elapsed, TaskEnv.quiet])
    (by norm_num) (by decide)

/-- C9: with an iteration budget `N > 0`, a time budget `T`, a flag that is
never set and hooks that return, a task calls `Run*` exactly `max(N, k)` times,
where `k` is the least index at which the cumulative measured time reaches or
exceeds `T` (so `k ≥ 1` when `T > 0`): the loop goes on while either budget is
left and stops at the first check at which both are exhausted. The two counters
are assumed to stay within `int64_t`. -/
theorem both_budgets_runs (fuel : Nat) (env : TaskEnv) (role : Role)
    (context : ContextMPMC) (point task : Nat) (N T : Int) (k : Nat)
    (hN0 : 0 < N) (hN : N < 2 ^ 63)
    (hc : ∀ j, env.canceled j = false)
    (hi : env.InitializeThrows = false) (hr : ∀ j, env.RunThrows j = false)
    (hk : T ≤ elapsed env.duration k) (hlt : ∀ j, j < k → elapsed env.duration j < T)
    (hrange : ∀ j, j ≤ k →
      -2 ^ 63 ≤ T - elapsed env.duration j ∧ T - elapsed env.duration j < 2 ^ 63)
    (hNk : (k : Int) - N ≤ 2 ^ 63) (hf : max N.toNat k < fuel) :
    ∃ r, runTask fuel env role context point task N T = some r
      ∧ (runCalls r.log : Int) = max N k
      ∧ (addIterationsCalls (StartPhaseThreadSafe point task) r.log : Int) = max N k := by
  have hfuel : k + (N - (k : Int)).toNat < fuel := by
    rcases le_total N.toNat k with h | h
    · rw [max_eq_right h] at hf; omega
    · rw [max_eq_left h] at hf; omega
  obtain ⟨s1, h1, h2, h3⟩ := workerLoop_budgets role
    (taskContext context (StartPhaseThreadSafe point task)) env N T k hc hr hk hlt hrange
    hN (by omega) k fuel (loopStart N T (entryLog role context point task))
    (by simp [loopStart]) (by simp [loopStart, elapsed]) (by simp [loopStart])
    hfuel
  obtain ⟨r, hr1, hr2, hr3⟩ := runTask_of_loop fuel env role context point task N T hi _ _ h1
  simp only [taskContext, loopStart, addIterationsCalls_entryLog, runCalls_entryLog] at h2 h3
  refine ⟨r, hr1, ?_, ?_⟩
  · rw [hr2, h2]; omega
  · rw [hr3, h3]; omega

/-- Five iterations and 12 ns with calls of 5 ns: the time is used up after 3
calls, the iterations after 5, so the task makes 5 calls. -/
theorem both_budgets_runs_witness :
    ∃ r, runTask 6 (TaskEnv.quiet 5) .producer ctx23 0 0 5 12 = some r
      ∧ (runCalls r.log : Int) = max (5 : Int) (3 : Nat)
      ∧ (addIterationsCalls (StartPhaseThreadSafe 0 0) r.log : Int) = max (5 : Int) (3 : Nat) :=
  both_budgets_runs 6 (TaskEnv.quiet 5) .producer ctx23 0 0 5 12 3
    (by decide) (by norm_num) (fun _ => rfl) rfl (fun _ => rfl) (by decide)
    (by intro j hj; interval_cases j <;> decide)
    (by intro j hj; interval_cases j <;> simp [elapsed, TaskEnv.quiet])
    (by norm_num) (by decide)

/-! ## Cancellation -/

theorem stateAt_calls (env : TaskEnv) (s : LoopState) (i : Nat) :
    (stateAt env s i).calls = s.calls + i := by
  induction i with
  | zero => rfl
  | succ i ih => simp only [stateAt, afterRun, ih]; omega

/-- The loop variables after some passes do not depend on the log. -/
theorem stateAt_congr (env : TaskEnv) (s t : LoopState) (h1 : s.iterations = t.iterations)
    (h2 : s.nanoseconds = t.nanoseconds) (h3 : s.calls = t.calls) (i : Nat) :
    (stateAt env s i).iterations = (stateAt env t i).iterations
      ∧ (stateAt env s i).nanoseconds = (stateAt env t i).nanoseconds
      ∧ (stateAt env s i).calls = (stateAt env t i).calls := by
  induction i with
  | zero => exact ⟨h1, h2, h3⟩
  | succ i ih =>
    obtain ⟨a, b, c⟩ := ih
    simp only [stateAt, afterRun, a, b, c, and_self]

theorem stateAt_shift (env : TaskEnv) (s : LoopState) (i : Nat) :
    stateAt env (afterRun env s) i = stateAt env s (i + 1) := by
  induction i with
  | zero => rfl
  | succ i ih => simp only [stateAt] at ih ⊢; rw [ih]

theorem loopCond_congr (env : TaskEnv) (s t : LoopState) (h1 : s.iterations = t.iterations)
    (h2 : s.nanoseconds = t.nanoseconds) (h3 : s.calls = t.calls) :
    loopCond env s = loopCond env t := by
  simp only [loopCond, h1, h2, h3]

/-- A loop that finds the flag set at the check numbered `c` ends there at the
latest, and exactly there when every earlier check let it go on and every
earlier `Run*` call returned. -/
theorem workerLoop_canceled (role : Role) (ctx : ContextMPMC) (env : TaskEnv) (c : Nat)
    (hc : env.canceled c = true) :
    ∀ (n fuel : Nat) (s : LoopState), s.calls + n = c → n < fuel →
      ∃ e s1, workerLoop role ctx env fuel s = some (e, s1)
        ∧ runCalls s1.log ≤ runCalls s.log + n
        ∧ ((∀ i, i < n → loopCond env (stateAt env s i) = true
              ∧ env.RunThrows (s.calls + i) = false)
            → runCalls s1.log = runCalls s.log + n) := by
  intro n
  induction n with
  | zero =>
    intro fuel s hs hf
    obtain ⟨f, rfl⟩ : ∃ f, fuel = f + 1 := ⟨fuel - 1, by omega⟩
    have hsc : s.calls = c := by omega
    refine ⟨.normal, s, ?_, by simp, fun _ => by simp⟩
    simp [workerLoop, loopCond, hsc, hc]
  | succ n ih =>
    intro fuel s hs hf
    obtain ⟨f, rfl⟩ : ∃ f, fuel = f + 1 := ⟨fuel - 1, by omega⟩
    by_cases hcond : loopCond env s = true
    · by_cases hthrow : env.RunThrows s.calls = true
      · refine ⟨.exception, callRun role ctx s, by simp [workerLoop, hcond, hthrow], ?_, ?_⟩
        · simp [callRun, runCalls, List.countP_append, List.countP_cons]
        · intro hall
          have := (hall 0 (by omega)).2
          simp [hthrow] at this
      · obtain ⟨e, s1, h1, h2, h3⟩ := ih f (afterRun env (callRun role ctx s))
          (by simp [afterRun, callRun]; omega) (by omega)
        refine ⟨e, s1, by simp [workerLoop, hcond, hthrow, h1], ?_, ?_⟩
        · rw [runCalls_callRun] at h2; omega
        · intro hall
          rw [runCalls_callRun] at h3
          have := h3 (by
            intro i hi
            obtain ⟨a, b⟩ := hall (i + 1) (by omega)
            have hsh := stateAt_shift env (callRun role ctx s) i
            have hcg := stateAt_congr env (callRun role ctx s) s rfl rfl rfl (i + 1)
            refine ⟨?_, ?_⟩
            · rw [hsh, loopCond_congr env _ _ hcg.1 hcg.2.1 hcg.2.2]; exact a
            · have : (afterRun env (callRun role ctx s)).calls + i = s.calls + (i + 1) := by
                simp [afterRun, callRun]; omega
              rw [this]; exact b)
          omega
    · refine ⟨.normal, s, by simp [workerLoop, hcond], by omega, ?_⟩
      intro hall
      exact absurd (hall 0 (by omega)).1 hcond

/-- C5: whatever the budgets, the clock and the hooks, a task that finds the
flag set at its check numbered `c` (counted from 0, so after `c` calls of
`Run*`) ends, having made at most `c` calls of `Run*`; and when it gets as far
as that check (its `Initialize*` returned, every earlier check let the loop go
on and every earlier `Run*` returned) it has made exactly `c` calls and makes no
further one. A flag set during a call of `Run*` thus lets this call finish and
no other begin. -/
theorem cancellation_stops (fuel : Nat) (env : TaskEnv) (role : Role)
    (context : ContextMPMC) (point task : Nat) (N T : Int) (c : Nat)
    (hc : env.canceled c = true) (hf : c < fuel) :
    ∃ r, runTask fuel env role context point task N T = some r
      ∧ runCalls r.log ≤ c
      ∧ (env.InitializeThrows = false →
          (∀ i, i < c → loopCond env (stateAt env (loopStart N T []) i) = true
            ∧ env.RunThrows i = false) →
          runCalls r.log = c) := by
  by_cases hi : env.InitializeThrows = true
  · refine ⟨⟨role, task, .exception, _⟩, by simp [runTask, hi]; rfl, ?_, ?_⟩
    · simp [runCalls, List.countP_cons]
    · intro h; simp [hi] at h
  · have hi : env.InitializeThrows = false := by simpa using hi
    obtain ⟨e, s1, h1, h2, h3⟩ := workerLoop_canceled role
      (taskContext context (StartPhaseThreadSafe point task)) env c hc c fuel
      (loopStart N T (entryLog role context point task)) (by simp [loopStart]) hf
    obtain ⟨r, hr1, hr2, _⟩ := runTask_of_loop fuel env role context point task N T hi _ _ h1
    have h0 : runCalls (loopStart N T (entryLog role context point task)).log = 0 :=
      runCalls_entryLog role context point task
    rw [h0] at h2 h3
    refine ⟨r, hr1, by omega, ?_⟩
    intro _ hall
    rw [hr2, h3 ?_]
    · omega
    · intro i hic
      obtain ⟨a, b⟩ := hall i hic
      have hcg := stateAt_congr env (loopStart N T (entryLog role context point task))
        (loopStart N T []) rfl rfl rfl i
      refine ⟨?_, by simpa [loopStart] using b⟩
      rw [loopCond_congr env _ _ hcg.1 hcg.2.1 hcg.2.2]; exact a

/-- A consumer with 100 iterations to do whose flag is set during its second
call of `RunConsumer`: it finishes that call and stops, having made 2 calls. -/
theorem cancellation_stops_witness :
    ∃ r, runTask 3 (TaskEnv.canceledFrom 2) .consumer ctx23 0 4 100 0 = some r
      ∧ runCalls r.log ≤ 2
      ∧ ((TaskEnv.canceledFrom 2).InitializeThrows = false →
          (∀ i, i < 2 →
            loopCond (TaskEnv.canceledFrom 2)
                (stateAt (TaskEnv.canceledFrom 2) (loopStart 100 0 []) i) = true
              ∧ (TaskEnv.canceledFrom 2).RunThrows i = false) →
          runCalls r.log = 2) :=
  cancellation_stops 3 (TaskEnv.canceledFrom 2) .consumer ctx23 0 4 100 0 2 rfl (by decide)

/-! ## One sweep point -/

theorem startTasks_eq (role : Role) (context : ContextMPMC) (point : Nat) (N T : Int)
    (count : Int) (b : BenchmarkMPMC) :
    startTasks role context point N T count b =
      { b with
        _futures := b._futures ++ (List.range count.toNat).map
          (fun i => (⟨role, point, b._futures.length + i, context, N, T⟩ : Future))
        log := b.log ++ (List.range count.toNat).map
          (fun i => Event.async role (b._futures.length + i)) } := by
  unfold startTasks
  generalize count.toNat = n
  induction n with
  | zero => simp
  | succ n ih =>
    rw [List.range_succ, List.foldl_append, ih]
    simp [List.append_assoc]

theorem waitAll_eq (fuel : Nat) (env : Env) :
    ∀ (fs : List Future) (b : BenchmarkMPMC),
      (∀ f, f ∈ fs → (f.result fuel env).isSome = true) →
      waitAll fuel env fs b = some
        { b with
          log := b.log ++ fs.map (fun f => Event.wait f.task)
          finished := b.finished ++ fs.filterMap (fun f => f.result fuel env) } := by
  intro fs
  induction fs with
  | nil => intro b _; simp [waitAll]
  | cons f fs ih =>
    intro b h
    obtain ⟨r, hr⟩ := Option.isSome_iff_exists.mp (h f (by simp))
    rw [waitAll, hr]
    simp only
    rw [ih _ (fun g hg => h g (by simp [hg]))]
    simp [hr, List.append_assoc]

theorem pointFutures_tasks (point : Nat) (context : ContextMPMC) (N T : Int)
    (mpmc : Int × Int) :
    (pointFutures point context N T mpmc).map (fun f => Event.wait f.task)
      = (List.range (mpmc.1.toNat + mpmc.2.toNat)).map Event.wait := by
  simp [pointFutures, List.range_add, Function.comp_def]

/-- A sweep point whose root hooks return and whose tasks all end. -/
theorem runPoint_normal (fuel : Nat) (env : Env) (attempt : Int) (mpmc : Int × Int)
    (param : Int × Int × Int) (b : BenchmarkMPMC) (hfut : b._futures = [])
    (hI : env.InitializeThrows b.points = false) (hC : env.CleanupThrows b.points = false)
    (hterm : ∀ role task, (runTask fuel (env.task b.points task) role (pointContext mpmc param)
      b.points task b._settings._iterations b._settings._nanoseconds).isSome = true) :
    runPoint fuel env attempt mpmc param b = some (.normal,
      { b with
        points := b.points + 1
        log := b.log ++ pointLog attempt mpmc param
        finished := b.finished ++
          (pointFutures b.points (pointContext mpmc param) b._settings._iterations
            b._settings._nanoseconds mpmc).filterMap (fun f => f.result fuel env) }) := by
  have hw := waitAll_eq fuel env
    (pointFutures b.points (pointContext mpmc param) b._settings._iterations
      b._settings._nanoseconds mpmc)
  unfold runPoint
  simp only [hI, hC, Bool.false_eq_true, if_false, startTasks_eq, BenchmarkMPMC.call, hfut,
    List.nil_append, List.length_nil, Nat.zero_add, List.length_map, List.length_range]
  unfold pointFutures at hw
  unfold pointContext at hw hterm
  rw [hw]
  · simp only [pointLog, pointContext, InitBenchmarkContext, pointFutures,
      List.append_assoc, List.map_append, List.map_map, Function.comp_def, List.range_add]
    simp [hfut]
  · intro f hf
    simp only [List.mem_append, List.mem_map, List.mem_range] at hf
    rcases hf with ⟨i, _, rfl⟩ | ⟨i, _, rfl⟩
    · exact hterm _ _
    · exact hterm _ _

/-! ## The sweep -/

theorem Ran.trans {b b1 b2 : BenchmarkMPMC} {l1 l2 : List Event} (h1 : Ran b b1 l1)
    (h2 : Ran b1 b2 l2) : Ran b b2 (l1 ++ l2) :=
  { log := by rw [h2.log, h1.log, List.append_assoc]
    settings := h2.settings.trans h1.settings
    settings_mpmc := h2.settings_mpmc.trans h1.settings_mpmc
    futures := h2.futures
    launched := h2.launched.trans h1.launched }

theorem paramsLoop_normal (fuel : Nat) (env : Env) (N T : Int)
    (hI : ∀ n, env.InitializeThrows n = false) (hC : ∀ n, env.CleanupThrows n = false)
    (hterm : ∀ role context point task,
      (runTask fuel (env.task point task) role context point task N T).isSome = true)
    (attempt : Int) (mpmc : Int × Int) :
    ∀ (ps : List (Int × Int × Int)) (b : BenchmarkMPMC), b._futures = [] →
      b._settings._iterations = N → b._settings._nanoseconds = T →
      ∃ b1, paramsLoop fuel env attempt mpmc ps b = some (.normal, b1)
        ∧ Ran b b1 (ps.flatMap (pointLog attempt mpmc)) := by
  intro ps
  induction ps with
  | nil =>
    intro b hfut _ _
    exact ⟨b, rfl, ⟨by simp, rfl, rfl, hfut, rfl⟩⟩
  | cons param rest ih =>
    intro b hfut hN hT
    obtain ⟨b0, hp, hr0⟩ : ∃ b0, runPoint fuel env attempt mpmc param b = some (.normal, b0)
        ∧ Ran b b0 (pointLog attempt mpmc param) :=
      ⟨_, runPoint_normal fuel env attempt mpmc param b hfut (hI _) (hC _)
        (fun role task => by rw [hN, hT]; exact hterm _ _ _ _), ⟨rfl, rfl, rfl, hfut, rfl⟩⟩
    obtain ⟨b1, h1, hr⟩ := ih b0 hr0.futures (by rw [hr0.settings]; exact hN)
      (by rw [hr0.settings]; exact hT)
    refine ⟨b1, ?_, ?_⟩
    · rw [paramsLoop, hp]; exact h1
    · simpa using hr0.trans hr

theorem mpmcLoop_normal (fuel : Nat) (env : Env) (N T : Int)
    (hI : ∀ n, env.InitializeThrows n = false) (hC : ∀ n, env.CleanupThrows n = false)
    (hterm : ∀ role context point task,
      (runTask fuel (env.task point task) role context point task N T).isSome = true)
    (attempt : Int) :
    ∀ (ms : List (Int × Int)) (b : BenchmarkMPMC), b._futures = [] →
      b._settings._iterations = N → b._settings._nanoseconds = T →
      ∃ b1, mpmcLoop fuel env attempt ms b = some (.normal, b1)
        ∧ Ran b b1 (ms.flatMap fun m => b._settings._params.flatMap (pointLog attempt m)) := by
  intro ms
  induction ms with
  | nil =>
    intro b hfut _ _
    exact ⟨b, rfl, ⟨by simp, rfl, rfl, hfut, rfl⟩⟩
  | cons m rest ih =>
    intro b hfut hN hT
    obtain ⟨b1, h1, hr1⟩ := paramsLoop_normal fuel env N T hI hC hterm attempt m
      b._settings._params b hfut hN hT
    obtain ⟨b2, h2, hr2⟩ := ih b1 hr1.futures (by rw [hr1.settings]; exact hN)
      (by rw [hr1.settings]; exact hT)
    refine ⟨b2, ?_, ?_⟩
    · rw [mpmcLoop, h1]; exact h2
    · rw [hr1.settings] at hr2
      simpa using hr1.trans hr2

theorem normalizeMpmc_idem (l : List (Int × Int)) :
    normalizeMpmc (normalizeMpmc l) = normalizeMpmc l := by
  cases l <;> simp [normalizeMpmc]

theorem normalizeParams_idem (l : List (Int × Int × Int)) :
    normalizeParams (normalizeParams l) = normalizeParams l := by
  cases l <;> simp [normalizeParams]

/-- The calls of the attempts `attempt, attempt + 1, ..., attempt + n - 1`. -/
theorem attemptLoop_normal (fuel : Nat) (env : Env) (N T : Int)
    (hI : ∀ n, env.InitializeThrows n = false) (hC : ∀ n, env.CleanupThrows n = false)
    (hterm : ∀ role context point task,
      (runTask fuel (env.task point task) role context point task N T).isSome = true) :
    ∀ (n fuel1 : Nat) (attempt : Int) (b : BenchmarkMPMC),
      (b._settings._attempts + 1 - attempt).toNat = n → -2 ^ 31 ≤ attempt →
      b._settings._attempts < 2 ^ 31 - 1 → n < fuel1 → b._futures = [] →
      b._settings._iterations = N → b._settings._nanoseconds = T →
      ∃ b1, attemptLoop fuel env fuel1 attempt b = some (.normal, b1)
        ∧ b1.log = b.log ++ (List.range n).flatMap (fun i =>
            (normalizeMpmc b._settings_mpmc._mpmc).flatMap fun m =>
              (normalizeParams b._settings._params).flatMap (pointLog (attempt + i) m))
        ∧ b1._launched = b._launched
        ∧ (0 < n → b1._settings_mpmc._mpmc = normalizeMpmc b._settings_mpmc._mpmc
            ∧ b1._settings._params = normalizeParams b._settings._params) := by
  intro n
  induction n with
  | zero =>
    intro fuel1 attempt b hn _ _ hf _ _ _
    obtain ⟨f, rfl⟩ : ∃ f, fuel1 = f + 1 := ⟨fuel1 - 1, by omega⟩
    have : ¬ attempt ≤ b._settings._attempts := by omega
    exact ⟨b, by simp [attemptLoop, this], by simp, rfl, by omega⟩
  | succ n ih =>
    intro fuel1 attempt b hn hlo hA hf hfut hN hT
    obtain ⟨f, rfl⟩ : ∃ f, fuel1 = f + 1 := ⟨fuel1 - 1, by omega⟩
    have hle : attempt ≤ b._settings._attempts := by omega
    obtain ⟨b1, h1, hr1⟩ := mpmcLoop_normal fuel env N T hI hC hterm attempt
      (normalizeMpmc b._settings_mpmc._mpmc)
      { b with
        _settings_mpmc := ⟨normalizeMpmc b._settings_mpmc._mpmc⟩
        _settings := { b._settings with _params := normalizeParams b._settings._params } }
      hfut hN hT
    have hs1 := hr1.settings
    have hm1 := hr1.settings_mpmc
    simp only at hs1 hm1
    obtain ⟨b2, h2, hl2, hla2, hn2⟩ := ih f (attempt + 1) b1
      (by rw [hs1]; simp only; omega) (by omega) (by rw [hs1]; exact hA) (by omega)
      hr1.futures (by rw [hs1]; exact hN) (by rw [hs1]; exact hT)
    have hw : wrap32 (attempt + 1) = attempt + 1 := wrap32_eq _ (by omega) (by omega)
    refine ⟨b2, ?_, ?_, ?_, ?_⟩
    · rw [attemptLoop]
      simp only [hle, if_true, h1, hw]
      exact h2
    · rw [hl2, hr1.log, hs1, hm1]
      simp only [normalizeMpmc_idem, normalizeParams_idem, List.range_succ_eq_map,
        List.flatMap_cons, List.flatMap_map, List.append_assoc, Function.comp_def,
        Nat.succ_eq_add_one, Nat.cast_add, Nat.cast_one, Nat.cast_zero, add_zero]
      congr 2
      apply congrArg (fun g => List.flatMap (List.range n) g)
      funext i
      rw [show attempt + 1 + (i : Int) = attempt + ((i : Int) + 1) by omega]
    · rw [hla2, hr1.launched]
    · intro _
      rcases Nat.eq_zero_or_pos n with h0 | hpos
      · subst h0
        have hb : b2 = b1 := by
          obtain ⟨g, rfl⟩ : ∃ g, f = g + 1 := ⟨f - 1, by omega⟩
          have : ¬ attempt + 1 ≤ b1._settings._attempts := by rw [hs1]; simp only; omega
          have h3 : attemptLoop fuel env (g + 1) (attempt + 1) b1 = some (.normal, b1) := by
            simp [attemptLoop, this]
          rw [h3] at h2
          exact ((Prod.mk.inj (Option.some.inj h2)).2).symm
        rw [hb, hs1, hm1]
        exact ⟨rfl, rfl⟩
      · obtain ⟨e1, e2⟩ := hn2 hpos
        rw [e1, e2, hs1, hm1]
        simp only [normalizeMpmc_idem, normalizeParams_idem, and_self]

/-! ## The whole launch -/

theorem launchLog_eq (A : Nat) (ms : List (Int × Int)) (ps : List (Int × Int × Int)) :
    launchLog A ms ps = (List.range A).flatMap (fun i =>
      ms.flatMap fun m => ps.flatMap (pointLog (1 + (i : Int)) m)) := by
  simp only [launchLog, sweep, List.flatMap_assoc, List.flatMap_map]
  apply congrArg (fun g => List.flatMap (List.range A) g)
  funext i
  rw [add_comm]

/-- A launch in which the root hooks return and every task ends: `Launch`
returns, its log is the log of the sweep followed by the two updates and the
write of the launched flag, and the settings are left normalized. -/
theorem Launch_normal (fuel : Nat) (env : Env) (attempts N T : Int)
    (params : List (Int × Int × Int)) (mpmc : List (Int × Int))
    (hA : attempts < 2 ^ 31 - 1) (hfuel : attempts.toNat < fuel)
    (hI : ∀ n, env.InitializeThrows n = false) (hC : ∀ n, env.CleanupThrows n = false)
    (hterm : ∀ role context point task,
      (runTask fuel (env.task point task) role context point task N T).isSome = true) :
    ∃ b1, Launch fuel env (BenchmarkMPMC.create attempts N T params mpmc) = some (.normal, b1)
      ∧ b1.log = launchLog attempts.toNat (normalizeMpmc mpmc) (normalizeParams params)
          ++ [.UpdateBenchmarkThreads, .UpdateBenchmarkNames, .setLaunched]
      ∧ b1._launched = true
      ∧ (1 ≤ attempts → b1._settings_mpmc._mpmc = normalizeMpmc mpmc
          ∧ b1._settings._params = normalizeParams params) := by
  obtain ⟨b0, h0, hl, _, hn⟩ := attemptLoop_normal fuel env N T hI hC hterm attempts.toNat
    fuel 1 (BenchmarkMPMC.create attempts N T params mpmc)
    (by simp [BenchmarkMPMC.create]) (by norm_num) hA hfuel rfl rfl rfl
  refine ⟨_, by rw [Launch, h0], ?_, rfl, ?_⟩
  · simp [BenchmarkMPMC.call, hl, launchLog_eq, BenchmarkMPMC.create]
  · intro h1
    have := hn (by omega)
    simpa [BenchmarkMPMC.call, BenchmarkMPMC.create] using this

theorem filterMap_const_none {α β : Type} (l : List α) :
    List.filterMap (fun _ => (none : Option β)) l = [] := by
  induction l with
  | nil => rfl
  | cons a l ih => simp [List.filterMap_cons, ih]

theorem launchingCalls_pointLog (a : Int) (m : Int × Int) (p : Int × Int × Int) :
    launchingCalls (pointLog a m p) = [(a, m, p)] := by
  simp [launchingCalls, pointLog, pointContext, InitBenchmarkContext, List.filterMap_append,
    List.filterMap_cons, List.filterMap_map, Function.comp_def, filterMap_const_none]

theorem launchedCalls_pointLog (a : Int) (m : Int × Int) (p : Int × Int × Int) :
    launchedCalls (pointLog a m p) = [(a, m, p)] := by
  simp [launchedCalls, pointLog, pointContext, InitBenchmarkContext, List.filterMap_append,
    List.filterMap_cons, List.filterMap_map, Function.comp_def, filterMap_const_none]

theorem handlerCalls_pointLog (a : Int) (m : Int × Int) (p : Int × Int × Int) :
    handlerCalls (pointLog a m p)
      = [.onLaunching (pointContext m p) a, .onLaunched (pointContext m p) a] := by
  simp [handlerCalls, pointLog, List.filter_append, List.filter_cons, List.filter_map,
    Function.comp_def]

theorem launchingCalls_launchLog (A : Nat) (ms : List (Int × Int))
    (ps : List (Int × Int × Int)) :
    launchingCalls (launchLog A ms ps ++
      [.UpdateBenchmarkThreads, .UpdateBenchmarkNames, .setLaunched]) = sweep A ms ps := by
  simp only [launchingCalls, launchLog, List.filterMap_append, List.filterMap_flatMap]
  have := launchingCalls_pointLog
  simp only [launchingCalls] at this
  simp [this]

theorem launchedCalls_launchLog (A : Nat) (ms : List (Int × Int))
    (ps : List (Int × Int × Int)) :
    launchedCalls (launchLog A ms ps ++
      [.UpdateBenchmarkThreads, .UpdateBenchmarkNames, .setLaunched]) = sweep A ms ps := by
  simp only [launchedCalls, launchLog, List.filterMap_append, List.filterMap_flatMap]
  have := launchedCalls_pointLog
  simp only [launchedCalls] at this
  simp [this]

theorem handlerCalls_launchLog (A : Nat) (ms : List (Int × Int))
    (ps : List (Int × Int × Int)) :
    handlerCalls (launchLog A ms ps ++
      [.UpdateBenchmarkThreads, .UpdateBenchmarkNames, .setLaunched])
      = (sweep A ms ps).flatMap fun q =>
          [.onLaunching (pointContext q.2.1 q.2.2) q.1,
            .onLaunched (pointContext q.2.1 q.2.2) q.1] := by
  simp only [handlerCalls, launchLog, List.filter_append, List.filter_flatMap]
  have := handlerCalls_pointLog
  simp only [handlerCalls] at this
  simp [this]

theorem length_flatMap_const {α β : Type} (l : List α) (f : α → List β) (c : Nat)
    (h : ∀ a, (f a).length = c) : (l.flatMap f).length = l.length * c := by
  induction l with
  | nil => simp
  | cons a l ih => simp [List.flatMap_cons, ih, h, Nat.add_mul, Nat.add_comm]

theorem sweep_length (A : Nat) (ms : List (Int × Int)) (ps : List (Int × Int × Int)) :
    (sweep A ms ps).length = A * ms.length * ps.length := by
  unfold sweep
  rw [length_flatMap_const _ _ (ms.length * ps.length), List.length_range, Nat.mul_assoc]
  intro a
  rw [length_flatMap_const _ _ ps.length]
  intro m
  simp

theorem setLaunched_not_mem_launchLog (A : Nat) (ms : List (Int × Int))
    (ps : List (Int × Int × Int)) : Event.setLaunched ∉ launchLog A ms ps := by
  simp [launchLog, pointLog, List.mem_flatMap]

/-- An iteration-bounded task whose hooks return and whose flag is never set
ends within `max(N, 0) + 1` units of fuel. -/
theorem runTask_isSome_of_iterations (fuel : Nat) (env : TaskEnv) (role : Role)
    (context : ContextMPMC) (point task : Nat) (N T : Int)
    (hT : T ≤ 0) (hN : N < 2 ^ 63) (hc : ∀ j, env.canceled j = false)
    (hi : env.InitializeThrows = false) (hr : ∀ j, env.RunThrows j = false)
    (hf : N.toNat < fuel) :
    (runTask fuel env role context point task N T).isSome = true := by
  obtain ⟨s1, h1, _, _⟩ := workerLoop_iterations role
    (taskContext context (StartPhaseThreadSafe point task)) env hc hr N.toNat fuel
    (loopStart N T (entryLog role context point task)) rfl hN hT hf
  obtain ⟨r, hr1, _, _⟩ := runTask_of_loop fuel env role context point task N T hi _ _ h1
  rw [hr1]; rfl

theorem quiet_isSome (fuel : Nat) (N : Int) (hN : N < 2 ^ 63) (hf : N.toNat < fuel)
    (role : Role) (context : ContextMPMC) (point task : Nat) :
    (runTask fuel ((Env.quiet 0).task point task) role context point task N 0).isSome = true :=
  runTask_isSome_of_iterations fuel _ role context point task N 0 (le_refl 0) hN
    (fun _ => rfl) rfl (fun _ => rfl) hf

theorem workersThrow_isSome (role : Role) (context : ContextMPMC) (point task : Nat) :
    (runTask 2 (Env.workersThrow.task point task) role context point task 1 0).isSome
      = true := by
  simp [runTask, workerLoop, loopCond, loopStart, Env.workersThrow]

/-- C1: when the root hooks return and every task ends, `Launch` returns, and
the arguments `(attempt, (producers, consumers), tuple)` of its `onLaunching`
calls, as of its `onLaunched` calls, are the lexicographic enumeration of
attempts `1..A` (outermost), the normalized pairs (in list order) and the
normalized tuples (in list order, innermost): `A * M * P` calls each. -/
theorem launch_notifies_in_sweep_order (fuel : Nat) (env : Env) (attempts N T : Int)
    (params : List (Int × Int × Int)) (mpmc : List (Int × Int))
    (hA : attempts < 2 ^ 31 - 1) (hfuel : attempts.toNat < fuel)
    (hI : ∀ n, env.InitializeThrows n = false) (hC : ∀ n, env.CleanupThrows n = false)
    (hterm : ∀ role context point task,
      (runTask fuel (env.task point task) role context point task N T).isSome = true) :
    ∃ b1, Launch fuel env (BenchmarkMPMC.create attempts N T params mpmc) = some (.normal, b1)
      ∧ launchingCalls b1.log
          = sweep attempts.toNat (normalizeMpmc mpmc) (normalizeParams params)
      ∧ launchedCalls b1.log
          = sweep attempts.toNat (normalizeMpmc mpmc) (normalizeParams params)
      ∧ (launchingCalls b1.log).length
          = attempts.toNat * (normalizeMpmc mpmc).length * (normalizeParams params).length
      ∧ (launchedCalls b1.log).length
          = attempts.toNat * (normalizeMpmc mpmc).length * (normalizeParams params).length := by
  obtain ⟨b1, h1, hl, _, _⟩ :=
    Launch_normal fuel env attempts N T params mpmc hA hfuel hI hC hterm
  refine ⟨b1, h1, ?_, ?_, ?_, ?_⟩
  · rw [hl, launchingCalls_launchLog]
  · rw [hl, launchedCalls_launchLog]
  · rw [hl, launchingCalls_launchLog, sweep_length]
  · rw [hl, launchedCalls_launchLog, sweep_length]

/-- Two attempts, the pairs (2,1) and (0,0) and the tuples (7,8,9) and (1,2,3):
eight notifications of each kind. -/
theorem launch_notifies_in_sweep_order_witness :
    ∃ b1, Launch 4 (Env.quiet 0)
        (BenchmarkMPMC.create 2 3 0 [(7, 8, 9), (1, 2, 3)] [(2, 1), (0, 0)]) = some (.normal, b1)
      ∧ launchingCalls b1.log
          = sweep (2 : Int).toNat (normalizeMpmc [(2, 1), (0, 0)])
              (normalizeParams [(7, 8, 9), (1, 2, 3)])
      ∧ launchedCalls b1.log
          = sweep (2 : Int).toNat (normalizeMpmc [(2, 1), (0, 0)])
              (normalizeParams [(7, 8, 9), (1, 2, 3)])
      ∧ (launchingCalls b1.log).length
          = (2 : Int).toNat * (normalizeMpmc [(2, 1), (0, 0)]).length
              * (normalizeParams [(7, 8, 9), (1, 2, 3)]).length
      ∧ (launchedCalls b1.log).length
          = (2 : Int).toNat * (normalizeMpmc [(2, 1), (0, 0)]).length
              * (normalizeParams [(7, 8, 9), (1, 2, 3)]).length :=
  launch_notifies_in_sweep_order 4 (Env.quiet 0) 2 3 0 [(7, 8, 9), (1, 2, 3)] [(2, 1), (0, 0)]
    (by norm_num) (by decide) (fun _ => rfl) (fun _ => rfl)
    (quiet_isSome 4 3 (by norm_num) (by decide))

theorem normalizeMpmc_ne_nil (l : List (Int × Int)) : normalizeMpmc l ≠ [] := by
  cases l <;> simp [normalizeMpmc]

theorem normalizeParams_ne_nil (l : List (Int × Int × Int)) : normalizeParams l ≠ [] := by
  cases l <;> simp [normalizeParams]

/-- C2: the normalization turns an empty list of pairs into `[(1,1)]` and an
empty list of tuples into `[(-1,-1,-1)]` and leaves a non-empty list as it is;
with `attempts ≥ 1` (the invariant of the settings) it is done before the first
sweep point, so that the sweep is over the normalized lists, is not empty, and
at least one sweep point is executed; the settings are left normalized. -/
theorem normalization_makes_sweep_nonempty (fuel : Nat) (env : Env) (attempts N T : Int)
    (params : List (Int × Int × Int)) (mpmc : List (Int × Int))
    (h1 : 1 ≤ attempts) (hA : attempts < 2 ^ 31 - 1) (hfuel : attempts.toNat < fuel)
    (hI : ∀ n, env.InitializeThrows n = false) (hC : ∀ n, env.CleanupThrows n = false)
    (hterm : ∀ role context point task,
      (runTask fuel (env.task point task) role context point task N T).isSome = true) :
    normalizeMpmc [] = [(1, 1)] ∧ normalizeParams [] = [(-1, -1, -1)]
      ∧ (mpmc ≠ [] → normalizeMpmc mpmc = mpmc)
      ∧ (params ≠ [] → normalizeParams params = params)
      ∧ ∃ b1, Launch fuel env (BenchmarkMPMC.create attempts N T params mpmc)
            = some (.normal, b1)
          ∧ b1._settings_mpmc._mpmc = normalizeMpmc mpmc
          ∧ b1._settings._params = normalizeParams params
          ∧ launchingCalls b1.log
              = sweep attempts.toNat (normalizeMpmc mpmc) (normalizeParams params)
          ∧ sweep attempts.toNat (normalizeMpmc mpmc) (normalizeParams params) ≠ []
          ∧ 1 ≤ (launchingCalls b1.log).length := by
  obtain ⟨b1, hb, hl, _, hn⟩ :=
    Launch_normal fuel env attempts N T params mpmc hA hfuel hI hC hterm
  have hpos : 0 < (sweep attempts.toNat (normalizeMpmc mpmc) (normalizeParams params)).length := by
    rw [sweep_length]
    have a1 : 0 < attempts.toNat := by omega
    have a2 := List.length_pos.mpr (normalizeMpmc_ne_nil mpmc)
    have a3 := List.length_pos.mpr (normalizeParams_ne_nil params)
    exact Nat.mul_pos (Nat.mul_pos a1 a2) a3
  refine ⟨rfl, rfl, ?_, ?_, b1, hb, (hn h1).1, (hn h1).2, ?_, ?_, ?_⟩
  · intro h; cases mpmc with
    | nil => exact absurd rfl h
    | cons a l => rfl
  · intro h; cases params with
    | nil => exact absurd rfl h
    | cons a l => rfl
  · rw [hl, launchingCalls_launchLog]
  · exact List.length_pos.mp hpos
  · rw [hl, launchingCalls_launchLog]; exact hpos

/-- One attempt with both lists empty: one sweep point, for the pair (1,1) and
the tuple (-1,-1,-1). -/
theorem normalization_makes_sweep_nonempty_witness :
    normalizeMpmc [] = [(1, 1)] ∧ normalizeParams [] = [(-1, -1, -1)]
      ∧ (([] : List (Int × Int)) ≠ [] → normalizeMpmc [] = [])
      ∧ (([] : List (Int × Int × Int)) ≠ [] → normalizeParams [] = [])
      ∧ ∃ b1, Launch 2 (Env.quiet 0) (BenchmarkMPMC.create 1 1 0 [] []) = some (.normal, b1)
          ∧ b1._settings_mpmc._mpmc = normalizeMpmc []
          ∧ b1._settings._params = normalizeParams []
          ∧ launchingCalls b1.log
              = sweep (1 : Int).toNat (normalizeMpmc []) (normalizeParams [])
          ∧ sweep (1 : Int).toNat (normalizeMpmc []) (normalizeParams []) ≠ []
          ∧ 1 ≤ (launchingCalls b1.log).length :=
  normalization_makes_sweep_nonempty 2 (Env.quiet 0) 1 1 0 [] [] (by decide) (by norm_num)
    (by decide) (fun _ => rfl) (fun _ => rfl) (quiet_isSome 2 1 (by norm_num) (by decide))

/-! ## The launched flag -/

theorem waitAll_launched (fuel : Nat) (env : Env) :
    ∀ (fs : List Future) (b b1 : BenchmarkMPMC), waitAll fuel env fs b = some b1 →
      b1._launched = b._launched := by
  intro fs
  induction fs with
  | nil => intro b b1 h; simp only [waitAll, Option.some.injEq] at h; rw [← h]
  | cons f fs ih =>
    intro b b1 h
    rw [waitAll] at h
    cases hr : f.result fuel env with
    | none => rw [hr] at h; simp at h
    | some r =>
      rw [hr] at h
      simp only at h
      have h2 := ih _ _ h
      exact h2

theorem runPoint_launched (fuel : Nat) (env : Env) (attempt : Int) (mpmc : Int × Int)
    (param : Int × Int × Int) (b : BenchmarkMPMC) (e : Exit) (b1 : BenchmarkMPMC)
    (h : runPoint fuel env attempt mpmc param b = some (e, b1)) :
    b1._launched = b._launched := by
  unfold runPoint at h
  by_cases hI : env.InitializeThrows b.points = true
  · simp only [hI, if_true, Option.some.injEq, Prod.mk.injEq] at h
    rw [← h.2]; rfl
  · simp only [hI, Bool.false_eq_true, if_false, startTasks_eq, BenchmarkMPMC.call] at h
    split at h
    · simp at h
    · rename_i b2 hw
      have h2 := waitAll_launched _ _ _ _ _ hw
      by_cases hC : env.CleanupThrows b.points = true
      · simp only [hC, if_true, Option.some.injEq, Prod.mk.injEq] at h
        rw [← h.2]; exact h2
      · simp only [hC, Bool.false_eq_true, if_false, Option.some.injEq, Prod.mk.injEq] at h
        rw [← h.2]; exact h2

theorem paramsLoop_launched (fuel : Nat) (env : Env) (attempt : Int) (mpmc : Int × Int) :
    ∀ (ps : List (Int × Int × Int)) (b : BenchmarkMPMC) (e : Exit) (b1 : BenchmarkMPMC),
      paramsLoop fuel env attempt mpmc ps b = some (e, b1) → b1._launched = b._launched := by
  intro ps
  induction ps with
  | nil =>
    intro b e b1 h
    simp only [paramsLoop, Option.some.injEq, Prod.mk.injEq] at h
    rw [← h.2]
  | cons p rest ih =>
    intro b e b1 h
    rw [paramsLoop] at h
    cases hr : runPoint fuel env attempt mpmc p b with
    | none => rw [hr] at h; simp at h
    | some res =>
      obtain ⟨e2, b2⟩ := res
      have h2 := runPoint_launched _ _ _ _ _ _ _ _ hr
      rw [hr] at h
      cases e2 with
      | exception =>
        simp only [Option.some.injEq, Prod.mk.injEq] at h
        rw [← h.2]; exact h2
      | normal => exact (ih _ _ _ h).trans h2

theorem mpmcLoop_launched (fuel : Nat) (env : Env) (attempt : Int) :
    ∀ (ms : List (Int × Int)) (b : BenchmarkMPMC) (e : Exit) (b1 : BenchmarkMPMC),
      mpmcLoop fuel env attempt ms b = some (e, b1) → b1._launched = b._launched := by
  intro ms
  induction ms with
  | nil =>
    intro b e b1 h
    simp only [mpmcLoop, Option.some.injEq, Prod.mk.injEq] at h
    rw [← h.2]
  | cons m rest ih =>
    intro b e b1 h
    rw [mpmcLoop] at h
    cases hr : paramsLoop fuel env attempt m b._settings._params b with
    | none => rw [hr] at h; simp at h
    | some res =>
      obtain ⟨e2, b2⟩ := res
      have h2 := paramsLoop_launched _ _ _ _ _ _ _ _ hr
      rw [hr] at h
      cases e2 with
      | exception =>
        simp only [Option.some.injEq, Prod.mk.injEq] at h
        rw [← h.2]; exact h2
      | normal => exact (ih _ _ _ h).trans h2

theorem attemptLoop_launched (fuel : Nat) (env : Env) :
    ∀ (n : Nat) (attempt : Int) (b : BenchmarkMPMC) (e : Exit) (b1 : BenchmarkMPMC),
      attemptLoop fuel env n attempt b = some (e, b1) → b1._launched = b._launched := by
  intro n
  induction n with
  | zero => intro attempt b e b1 h; simp [attemptLoop] at h
  | succ n ih =>
    intro attempt b e b1 h
    rw [attemptLoop] at h
    by_cases hle : attempt ≤ b._settings._attempts
    · simp only [hle, if_true] at h
      split at h
      · simp at h
      · rename_i b2 hm
        have h2 := mpmcLoop_launched _ _ _ _ _ _ _ hm
        simp only [Option.some.injEq, Prod.mk.injEq] at h
        rw [← h.2]; exact h2
      · rename_i b2 hm
        have h2 := mpmcLoop_launched _ _ _ _ _ _ _ hm
        exact (ih _ _ _ _ h).trans h2
    · simp only [hle, if_false, Option.some.injEq, Prod.mk.injEq] at h
      rw [← h.2]

/-- However `Launch` ends, a benchmark that was not launched is launched
afterwards exactly when `Launch` returned: an exception that leaves `Launch`
leaves the flag unset. -/
theorem Launch_launched_iff (fuel : Nat) (env : Env) (b : BenchmarkMPMC)
    (hb : b._launched = false) (e : Exit) (b1 : BenchmarkMPMC)
    (h : Launch fuel env b = some (e, b1)) : b1._launched = true ↔ e = .normal := by
  unfold Launch at h
  split at h
  · simp at h
  · rename_i b2 ha
    have h2 := attemptLoop_launched _ _ _ _ _ _ _ ha
    simp only [Option.some.injEq, Prod.mk.injEq] at h
    rw [← h.1, ← h.2, h2, hb]
    simp
  · simp only [BenchmarkMPMC.call, Option.some.injEq, Prod.mk.injEq] at h
    rw [← h.1, ← h.2]
    simp

/-- C8: a freshly constructed benchmark is not launched, and however `Launch`
ends the flag is set afterwards exactly when `Launch` returned; when the root
hooks return and every task ends, `Launch` does return with `launched = true`,
and the write of the flag is the last entry of its log: it comes after the calls
of all `A * M * P` sweep points (their `onLaunched` and `ChooseBestWorstMetrics`
included) and after the two updates, and there is no write of the flag among the
calls of the sweep. -/
theorem launched_set_after_sweep (fuel : Nat) (env : Env) (attempts N T : Int)
    (params : List (Int × Int × Int)) (mpmc : List (Int × Int))
    (hA : attempts < 2 ^ 31 - 1) (hfuel : attempts.toNat < fuel)
    (hI : ∀ n, env.InitializeThrows n = false) (hC : ∀ n, env.CleanupThrows n = false)
    (hterm : ∀ role context point task,
      (runTask fuel (env.task point task) role context point task N T).isSome = true) :
    (BenchmarkMPMC.create attempts N T params mpmc)._launched = false
      ∧ (∀ e b2, Launch fuel env (BenchmarkMPMC.create attempts N T params mpmc) = some (e, b2) →
          (b2._launched = true ↔ e = .normal))
      ∧ ∃ b1, Launch fuel env (BenchmarkMPMC.create attempts N T params mpmc)
            = some (.normal, b1)
          ∧ b1._launched = true
          ∧ b1.log = launchLog attempts.toNat (normalizeMpmc mpmc) (normalizeParams params)
              ++ [.UpdateBenchmarkThreads, .UpdateBenchmarkNames, .setLaunched]
          ∧ Event.setLaunched
              ∉ launchLog attempts.toNat (normalizeMpmc mpmc) (normalizeParams params) := by
  obtain ⟨b1, hb, hl, hla, _⟩ :=
    Launch_normal fuel env attempts N T params mpmc hA hfuel hI hC hterm
  exact ⟨rfl, fun e b2 h => Launch_launched_iff fuel env _ rfl e b2 h,
    b1, hb, hla, hl, setLaunched_not_mem_launchLog _ _ _⟩

/-- The scenario of the specification: two attempts and both lists empty. The
sweep is the point for the pair (1,1) and the tuple (-1,-1,-1), run for attempt
1 and for attempt 2, and the flag is written after the second. -/
theorem launched_set_after_sweep_witness :
    (BenchmarkMPMC.create 2 1 0 [] [])._launched = false
      ∧ (∀ e b2, Launch 3 (Env.quiet 0) (BenchmarkMPMC.create 2 1 0 [] []) = some (e, b2) →
          (b2._launched = true ↔ e = .normal))
      ∧ ∃ b1, Launch 3 (Env.quiet 0) (BenchmarkMPMC.create 2 1 0 [] []) = some (.normal, b1)
          ∧ b1._launched = true
          ∧ b1.log = pointLog 1 (1, 1) (-1, -1, -1) ++ pointLog 2 (1, 1) (-1, -1, -1)
              ++ [.UpdateBenchmarkThreads, .UpdateBenchmarkNames, .setLaunched]
          ∧ Event.setLaunched
              ∉ pointLog 1 (1, 1) (-1, -1, -1) ++ pointLog 2 (1, 1) (-1, -1, -1) := by
  have h := launched_set_after_sweep 3 (Env.quiet 0) 2 1 0 [] [] (by norm_num) (by decide)
    (fun _ => rfl) (fun _ => rfl) (quiet_isSome 3 1 (by norm_num) (by decide))
  have e : launchLog (2 : Int).toNat (normalizeMpmc []) (normalizeParams [])
      = pointLog 1 (1, 1) (-1, -1, -1) ++ pointLog 2 (1, 1) (-1, -1, -1) := by
    simp [launchLog, sweep, normalizeMpmc, normalizeParams, List.range_succ]
  rw [e] at h
  exact h

/-- In a launch in which the root hooks return and every task ends (by
returning or by a failing hook), the handler notifications are, for every sweep
point in turn, `onLaunching` followed by `onLaunched` with the same context and
the same attempt. -/
theorem Launch_handlerCalls (fuel : Nat) (env : Env) (attempts N T : Int)
    (params : List (Int × Int × Int)) (mpmc : List (Int × Int))
    (hA : attempts < 2 ^ 31 - 1) (hfuel : attempts.toNat < fuel)
    (hI : ∀ n, env.InitializeThrows n = false) (hC : ∀ n, env.CleanupThrows n = false)
    (hterm : ∀ role context point task,
      (runTask fuel (env.task point task) role context point task N T).isSome = true) :
    ∃ b1, Launch fuel env (BenchmarkMPMC.create attempts N T params mpmc) = some (.normal, b1)
      ∧ handlerCalls b1.log
          = (sweep attempts.toNat (normalizeMpmc mpmc) (normalizeParams params)).flatMap
              fun q => [.onLaunching (pointContext q.2.1 q.2.2) q.1,
                .onLaunched (pointContext q.2.1 q.2.2) q.1] := by
  obtain ⟨b1, hb, hl, _, _⟩ :=
    Launch_normal fuel env attempts N T params mpmc hA hfuel hI hC hterm
  exact ⟨b1, hb, by rw [hl, handlerCalls_launchLog]⟩

/-- C7, as the code has it: for every sweep point whose root `Initialize` and
root `Cleanup` hooks return and whose tasks all end (by returning or by a
failing `Initialize*`, `Run*` or `Cleanup*` hook), the sweep point is left
normally, `onLaunching` is called at its start and `onLaunched` after its
execution, with the same context and the same attempt, and no other handler
notification lies between the two. -/
theorem launched_follows_launching (fuel : Nat) (env : Env) (attempt : Int)
    (mpmc : Int × Int) (param : Int × Int × Int) (b : BenchmarkMPMC)
    (hfut : b._futures = [])
    (hI : env.InitializeThrows b.points = false) (hC : env.CleanupThrows b.points = false)
    (hterm : ∀ role task, (runTask fuel (env.task b.points task) role (pointContext mpmc param)
      b.points task b._settings._iterations b._settings._nanoseconds).isSome = true) :
    ∃ b1 mid, runPoint fuel env attempt mpmc param b = some (.normal, b1)
      ∧ b1.log = b.log ++
          ([.InitBenchmarkContext (pointContext mpmc param),
              .onLaunching (pointContext mpmc param) attempt]
            ++ mid
            ++ [.onLaunched (pointContext mpmc param) attempt,
              .ChooseBestWorstMetrics (.root mpmc param)])
      ∧ handlerCalls mid = [] := by
  have hp := runPoint_normal fuel env attempt mpmc param b hfut hI hC hterm
  refine ⟨_, [.Initialize (pointContext mpmc param),
      .StartCollectingMetrics (.root mpmc param), .AddIterations (.root mpmc param) 1]
    ++ (List.range mpmc.1.toNat).map (fun i => Event.async .producer i)
    ++ (List.range mpmc.2.toNat).map (fun i => Event.async .consumer (mpmc.1.toNat + i))
    ++ (List.range (mpmc.1.toNat + mpmc.2.toNat)).map Event.wait
    ++ [.clearFutures, .StopCollectingMetrics (.root mpmc param),
      .Cleanup (pointContext mpmc param)], hp, ?_, ?_⟩
  · simp [pointLog, pointContext, InitBenchmarkContext]
  · simp [handlerCalls, List.filter_append, List.filter_cons, List.filter_map,
      Function.comp_def]

/-- A sweep point in which both producers and all three consumers fail in their
first call of `Run*`: both notifications are made all the same. -/
theorem launched_follows_launching_witness :
    ∃ b1 mid, runPoint 2 Env.workersThrow 1 (2, 3) (-1, -1, -1)
        (BenchmarkMPMC.create 1 1 0 [] [(2, 3)]) = some (.normal, b1)
      ∧ b1.log = (BenchmarkMPMC.create 1 1 0 [] [(2, 3)]).log ++
          ([.InitBenchmarkContext (pointContext (2, 3) (-1, -1, -1)),
              .onLaunching (pointContext (2, 3) (-1, -1, -1)) 1]
            ++ mid
            ++ [.onLaunched (pointContext (2, 3) (-1, -1, -1)) 1,
              .ChooseBestWorstMetrics (.root (2, 3) (-1, -1, -1))])
      ∧ handlerCalls mid = [] :=
  launched_follows_launching 2 Env.workersThrow 1 (2, 3) (-1, -1, -1)
    (BenchmarkMPMC.create 1 1 0 [] [(2, 3)]) rfl rfl rfl
    (fun role task => workersThrow_isSome role _ _ task)

/-- In that sweep point every one of the five tasks ends by an exception. -/
theorem workersThrow_all_fail :
    (runPoint 2 Env.workersThrow 1 (2, 3) (-1, -1, -1)
        (BenchmarkMPMC.create 1 1 0 [] [(2, 3)])).map
      (fun r => (r.1, r.2.finished.map (fun t => (t.role, t.exit))))
    = some (.normal, [(.producer, .exception), (.producer, .exception),
        (.consumer, .exception), (.consumer, .exception), (.consumer, .exception)]) := by
  rfl

/-- C7, as stated, fails: when the root `Initialize` hook throws, or the root
`Cleanup` hook throws, the exception leaves `Launch`; `onLaunching` has been
called for the sweep point and `onLaunched` is not. -/
theorem onLaunched_skipped_when_root_hook_throws :
    (Launch 2 Env.initializeThrows (BenchmarkMPMC.create 1 1 0 [] [])).map
        (fun r => (r.1, launchingCalls r.2.log, launchedCalls r.2.log))
      = some (.exception, [(1, (1, 1), (-1, -1, -1))], [])
    ∧ (Launch 2 Env.cleanupThrows (BenchmarkMPMC.create 1 1 0 [] [])).map
        (fun r => (r.1, launchingCalls r.2.log, launchedCalls r.2.log))
      = some (.exception, [(1, (1, 1), (-1, -1, -1))], []) := by
  constructor <;> rfl

/-! ## Phases and metrics of a sweep point -/

/-- The measuring loop only appends calls of `AddIterations(1)` on the metrics
of the task's context and calls of `Run*`. -/
theorem workerLoop_log (role : Role) (ctx : ContextMPMC) (env : TaskEnv) :
    ∀ (fuel : Nat) (s : LoopState) (e : Exit) (s1 : LoopState),
      workerLoop role ctx env fuel s = some (e, s1) →
      ∃ l, s1.log = s.log ++ l
        ∧ ∀ ev, ev ∈ l → ev = .AddIterations ctx._metrics 1 ∨ ev = .RunRole role ctx := by
  intro fuel
  induction fuel with
  | zero => intro s e s1 h; simp [workerLoop] at h
  | succ f ih =>
    intro s e s1 h
    rw [workerLoop] at h
    by_cases hcond : loopCond env s = true
    · by_cases hthrow : env.RunThrows s.calls = true
      · simp only [hcond, hthrow, if_true, Option.some.injEq, Prod.mk.injEq] at h
        obtain ⟨_, rfl⟩ := h
        exact ⟨_, rfl, by simp⟩
      · simp only [hcond, hthrow, if_true, Bool.false_eq_true, if_false] at h
        obtain ⟨l, hl, hev⟩ := ih _ _ _ h
        refine ⟨[.AddIterations ctx._metrics 1, .RunRole role ctx] ++ l, ?_, ?_⟩
        · rw [hl]; simp [afterRun, callRun]
        · intro ev hmem
          simp only [List.mem_append, List.mem_cons, List.mem_singleton, List.not_mem_nil,
            or_false] at hmem
          rcases hmem with (h1 | h1) | h1
          · exact Or.inl h1
          · exact Or.inr h1
          · exact hev ev h1
    · simp only [hcond, Bool.false_eq_true, if_false, Option.some.injEq, Prod.mk.injEq] at h
      obtain ⟨_, rfl⟩ := h
      exact ⟨[], by simp, by simp⟩

/-- A finished task has created exactly one child phase, under the phase of the
root context and named after its role, and has added iterations to the metrics
of that child only. -/
theorem runTask_log (fuel : Nat) (env : TaskEnv) (role : Role) (context : ContextMPMC)
    (point task : Nat) (N T : Int) (r : TaskResult)
    (h : runTask fuel env role context point task N T = some r) :
    r.role = role ∧ r.task = task
      ∧ createdPhases r.log = [(context._current, role.phaseName, .child point task)]
      ∧ ∀ q n, TaskEvent.AddIterations q n ∈ r.log → q = .child point task := by
  unfold runTask at h
  by_cases hi : env.InitializeThrows = true
  · simp only [hi, if_true, Option.some.injEq] at h
    subst h
    simp [createdPhases, StartPhaseThreadSafe]
  · simp only [hi, Bool.false_eq_true, if_false] at h
    cases hw : workerLoop role (taskContext context (StartPhaseThreadSafe point task)) env fuel
        (loopStart N T ([.StartPhaseThreadSafe context._current role.phaseName
          (StartPhaseThreadSafe point task)]
          ++ [.InitializeRole role (taskContext context (StartPhaseThreadSafe point task))]
          ++ [.StartCollectingMetrics
            (taskContext context (StartPhaseThreadSafe point task))._current])) with
    | none => rw [hw] at h; simp at h
    | some res =>
      obtain ⟨e, s1⟩ := res
      obtain ⟨l, hl, hev⟩ := workerLoop_log _ _ _ _ _ _ _ hw
      have hcp : createdPhases l = [] := by
        unfold createdPhases
        rw [List.filterMap_eq_nil_iff]
        intro ev hmem
        rcases hev ev hmem with rfl | rfl <;> rfl
      have hadd : ∀ q n, TaskEvent.AddIterations q n ∈ l → q = .child point task := by
        intro q n hmem
        rcases hev _ hmem with h1 | h1
        · simp only [TaskEvent.AddIterations.injEq] at h1
          rw [h1.1]
          rfl
        · exact absurd h1 (by simp)
      rw [hw] at h
      have hcpa : ∀ l1 l2, createdPhases (l1 ++ l2) = createdPhases l1 ++ createdPhases l2 := by
        intro l1 l2; simp [createdPhases, List.filterMap_append]
      cases e with
      | exception =>
        simp only [Option.some.injEq] at h
        subst h
        refine ⟨rfl, rfl, ?_, ?_⟩
        · simp only [hl, hcpa, hcp, loopStart]
          simp [createdPhases, StartPhaseThreadSafe]
        · intro q n hmem
          simp only [hl, loopStart, List.mem_append, List.mem_singleton, List.mem_cons] at hmem
          rcases hmem with hmem | hmem
          · simp at hmem
          · exact hadd q n hmem
      | normal =>
        by_cases hcl : env.CleanupThrows = true
        · simp only [hcl, if_true, Option.some.injEq] at h
          subst h
          refine ⟨rfl, rfl, ?_, ?_⟩
          · simp only [hl, hcpa, hcp, loopStart]
            simp [createdPhases, StartPhaseThreadSafe]
          · intro q n hmem
            simp only [hl, loopStart, List.mem_append, List.mem_singleton, List.mem_cons] at hmem
            rcases hmem with ((hmem | hmem) | hmem) | hmem
            · simp at hmem
            · exact hadd q n hmem
            · simp at hmem
            · simp at hmem
        · simp only [hcl, Bool.false_eq_true, if_false, Option.some.injEq] at h
          subst h
          refine ⟨rfl, rfl, ?_, ?_⟩
          · simp only [hl, hcpa, hcp, loopStart]
            simp [createdPhases, StartPhaseThreadSafe]
          · intro q n hmem
            simp only [hl, loopStart, List.mem_append, List.mem_singleton, List.mem_cons] at hmem
            rcases hmem with (((hmem | hmem) | hmem) | hmem) | hmem
            · simp at hmem
            · exact hadd q n hmem
            · simp at hmem
            · simp at hmem
            · simp at hmem

/-- A sweep point whose root `Initialize` returns and whose tasks all end:
the orchestrating thread gets past the wait, whatever the root `Cleanup` does,
and the finished tasks are those of `_futures`, in order. -/
theorem runPoint_finished (fuel : Nat) (env : Env) (attempt : Int) (mpmc : Int × Int)
    (param : Int × Int × Int) (b : BenchmarkMPMC) (hfut : b._futures = [])
    (hI : env.InitializeThrows b.points = false)
    (hterm : ∀ role task, (runTask fuel (env.task b.points task) role (pointContext mpmc param)
      b.points task b._settings._iterations b._settings._nanoseconds).isSome = true) :
    ∃ e b1, runPoint fuel env attempt mpmc param b = some (e, b1)
      ∧ b1.finished = b.finished ++
          (pointFutures b.points (pointContext mpmc param) b._settings._iterations
            b._settings._nanoseconds mpmc).filterMap (fun f => f.result fuel env) := by
  by_cases hC : env.CleanupThrows b.points = true
  · have hw := waitAll_eq fuel env
      (pointFutures b.points (pointContext mpmc param) b._settings._iterations
        b._settings._nanoseconds mpmc)
    unfold runPoint
    simp only [hI, hC, Bool.false_eq_true, if_false, if_true, startTasks_eq,
      BenchmarkMPMC.call, hfut, List.nil_append, List.length_nil, Nat.zero_add,
      List.length_map, List.length_range]
    unfold pointFutures at hw ⊢
    unfold pointContext at hw hterm ⊢
    rw [hw]
    · exact ⟨_, _, rfl, rfl⟩
    · intro f hf
      simp only [List.mem_append, List.mem_map, List.mem_range] at hf
      rcases hf with ⟨i, _, rfl⟩ | ⟨i, _, rfl⟩
      · exact hterm _ _
      · exact hterm _ _
  · exact ⟨_, _, runPoint_normal fuel env attempt mpmc param b hfut hI (by simpa using hC)
      hterm, rfl⟩

theorem flatMap_filterMap_of_some {α β γ : Type} (g : α → Option β) (f1 : β → List γ)
    (f2 : α → List γ) (l : List α) (h : ∀ a, a ∈ l → ∃ r, g a = some r ∧ f1 r = f2 a) :
    (l.filterMap g).flatMap f1 = l.flatMap f2 := by
  induction l with
  | nil => rfl
  | cons a l ih =>
    obtain ⟨r, hr, he⟩ := h a (by simp)
    rw [List.filterMap_cons, hr]
    simp only [List.flatMap_cons, he]
    rw [ih (fun x hx => h x (by simp [hx]))]

theorem flatMap_singleton_eq_map {α β : Type} (f : α → β) (l : List α) :
    l.flatMap (fun a => [f a]) = l.map f := by
  induction l with
  | nil => rfl
  | cons a l ih => simp [List.flatMap_cons, ih]

theorem addedIterations_pointLog (attempt : Int) (mpmc : Int × Int)
    (param : Int × Int × Int) :
    addedIterations (.root mpmc param) (pointLog attempt mpmc param) = 1 := by
  simp [addedIterations, pointLog, pointContext, InitBenchmarkContext, List.filterMap_append,
    List.filterMap_cons, List.filterMap_map, Function.comp_def, filterMap_const_none]

/-- C10: in a sweep point whose root hooks return and whose tasks all end, the
orchestrating thread makes exactly these calls, in this order: (the context is
prepared,) `onLaunching`, root `Initialize`, `StartCollectingMetrics` on the root
phase, one `AddIterations(1)` on the root metrics, the start of every producer
and then of every consumer, the wait for every started task, (`_futures` is
cleared,) `StopCollectingMetrics` on the root phase, root `Cleanup`,
`onLaunched`, `ChooseBestWorstMetrics` on the root phase. So the thread adds
exactly one iteration to the root metrics, no task adds any, and the
notifications and the root hooks lie outside the window between the start and
the stop of the root phase's collection. -/
theorem sweep_point_sequence (fuel : Nat) (env : Env) (attempt : Int) (mpmc : Int × Int)
    (param : Int × Int × Int) (b : BenchmarkMPMC) (hfut : b._futures = [])
    (hI : env.InitializeThrows b.points = false) (hC : env.CleanupThrows b.points = false)
    (hterm : ∀ role task, (runTask fuel (env.task b.points task) role (pointContext mpmc param)
      b.points task b._settings._iterations b._settings._nanoseconds).isSome = true) :
    ∃ b1, runPoint fuel env attempt mpmc param b = some (.normal, b1)
      ∧ b1.log = b.log ++
          ([.InitBenchmarkContext (pointContext mpmc param),
            .onLaunching (pointContext mpmc param) attempt,
            .Initialize (pointContext mpmc param),
            .StartCollectingMetrics (.root mpmc param),
            .AddIterations (.root mpmc param) 1]
          ++ (List.range mpmc.1.toNat).map (fun i => Event.async .producer i)
          ++ (List.range mpmc.2.toNat).map (fun i => Event.async .consumer (mpmc.1.toNat + i))
          ++ (List.range (mpmc.1.toNat + mpmc.2.toNat)).map Event.wait
          ++ [.clearFutures,
            .StopCollectingMetrics (.root mpmc param),
            .Cleanup (pointContext mpmc param),
            .onLaunched (pointContext mpmc param) attempt,
            .ChooseBestWorstMetrics (.root mpmc param)])
      ∧ addedIterations (.root mpmc param) b1.log
          = addedIterations (.root mpmc param) b.log + 1
      ∧ ∃ rs, b1.finished = b.finished ++ rs
          ∧ ∀ r, r ∈ rs → ∀ n, TaskEvent.AddIterations (.root mpmc param) n ∉ r.log := by
  have hp := runPoint_normal fuel env attempt mpmc param b hfut hI hC hterm
  refine ⟨_, hp, rfl, ?_, _, rfl, ?_⟩
  · have := addedIterations_pointLog attempt mpmc param
    simp only [addedIterations, List.filterMap_append, List.sum_append] at this ⊢
    omega
  · intro r hr n hmem
    obtain ⟨f, hf, hres⟩ := List.mem_filterMap.mp hr
    have := (runTask_log _ _ _ _ _ _ _ _ r hres).2.2.2 _ _ hmem
    cases this

/-- The scenario of the specification: the first sweep point of a benchmark with
the pair (2,3) and the tuple (100,-1,-1). -/
theorem sweep_point_sequence_witness :
    ∃ b1, runPoint 2 (Env.quiet 0) 1 (2, 3) (100, -1, -1)
        (BenchmarkMPMC.create 1 1 0 [(100, -1, -1)] [(2, 3)]) = some (.normal, b1)
      ∧ b1.log = (BenchmarkMPMC.create 1 1 0 [(100, -1, -1)] [(2, 3)]).log ++
          ([.InitBenchmarkContext (pointContext (2, 3) (100, -1, -1)),
            .onLaunching (pointContext (2, 3) (100, -1, -1)) 1,
            .Initialize (pointContext (2, 3) (100, -1, -1)),
            .StartCollectingMetrics (.root (2, 3) (100, -1, -1)),
            .AddIterations (.root (2, 3) (100, -1, -1)) 1]
          ++ (List.range 2).map (fun i => Event.async .producer i)
          ++ (List.range 3).map (fun i => Event.async .consumer (2 + i))
          ++ (List.range (2 + 3)).map Event.wait
          ++ [.clearFutures,
            .StopCollectingMetrics (.root (2, 3) (100, -1, -1)),
            .Cleanup (pointContext (2, 3) (100, -1, -1)),
            .onLaunched (pointContext (2, 3) (100, -1, -1)) 1,
            .ChooseBestWorstMetrics (.root (2, 3) (100, -1, -1))])
      ∧ addedIterations (.root (2, 3) (100, -1, -1)) b1.log
          = addedIterations (.root (2, 3) (100, -1, -1))
              (BenchmarkMPMC.create 1 1 0 [(100, -1, -1)] [(2, 3)]).log + 1
      ∧ ∃ rs, b1.finished = (BenchmarkMPMC.create 1 1 0 [(100, -1, -1)] [(2, 3)]).finished ++ rs
          ∧ ∀ r, r ∈ rs →
              ∀ n, TaskEvent.AddIterations (.root (2, 3) (100, -1, -1)) n ∉ r.log :=
  sweep_point_sequence 2 (Env.quiet 0) 1 (2, 3) (100, -1, -1)
    (BenchmarkMPMC.create 1 1 0 [(100, -1, -1)] [(2, 3)]) rfl rfl rfl
    (fun role task => quiet_isSome 2 1 (by norm_num) (by decide) role _ _ task)

/-- C6: in a sweep point for the pair `(p, c)` whose root `Initialize` returns
and whose tasks all end, `Launch` starts `p` producer tasks and then `c` consumer
tasks (none for a count below 1); every task creates exactly one child phase,
under the root phase of the sweep point and named "producer" or "consumer" after
its role, the children of different tasks being different; so `p` children named
"producer" and `c` children named "consumer" are created, and every task adds
iterations to the metrics of its own child only. -/
theorem tasks_create_own_phases (fuel : Nat) (env : Env) (attempt : Int) (mpmc : Int × Int)
    (param : Int × Int × Int) (b : BenchmarkMPMC) (hfut : b._futures = [])
    (hI : env.InitializeThrows b.points = false)
    (hterm : ∀ role task, (runTask fuel (env.task b.points task) role (pointContext mpmc param)
      b.points task b._settings._iterations b._settings._nanoseconds).isSome = true) :
    ∃ e b1 rs, runPoint fuel env attempt mpmc param b = some (e, b1)
      ∧ b1.finished = b.finished ++ rs
      ∧ rs.map (fun r => (r.role, r.task))
          = (List.range mpmc.1.toNat).map (fun i => (Role.producer, i))
            ++ (List.range mpmc.2.toNat).map (fun i => (Role.consumer, mpmc.1.toNat + i))
      ∧ rs.flatMap (fun r => createdPhases r.log)
          = (List.range mpmc.1.toNat).map
              (fun i => (PhaseId.root mpmc param, "producer", PhaseId.child b.points i))
            ++ (List.range mpmc.2.toNat).map
              (fun i => (PhaseId.root mpmc param, "consumer",
                PhaseId.child b.points (mpmc.1.toNat + i)))
      ∧ ∀ r, r ∈ rs → ∀ q n, TaskEvent.AddIterations q n ∈ r.log
          → q = PhaseId.child b.points r.task := by
  obtain ⟨e, b1, h1, h2⟩ := runPoint_finished fuel env attempt mpmc param b hfut hI hterm
  have hmemf : ∀ f, f ∈ pointFutures b.points (pointContext mpmc param) b._settings._iterations
      b._settings._nanoseconds mpmc →
      f.point = b.points ∧ f.context = pointContext mpmc param
        ∧ f.iterations = b._settings._iterations ∧ f.nanoseconds = b._settings._nanoseconds := by
    intro f hf
    simp only [pointFutures, List.mem_append, List.mem_map, List.mem_range] at hf
    rcases hf with ⟨i, _, rfl⟩ | ⟨i, _, rfl⟩ <;> exact ⟨rfl, rfl, rfl, rfl⟩
  have hres : ∀ f, f ∈ pointFutures b.points (pointContext mpmc param) b._settings._iterations
      b._settings._nanoseconds mpmc →
      ∃ r, f.result fuel env = some r ∧ r.role = f.role ∧ r.task = f.task
        ∧ createdPhases r.log
            = [(PhaseId.root mpmc param, f.role.phaseName, PhaseId.child b.points f.task)]
        ∧ ∀ q n, TaskEvent.AddIterations q n ∈ r.log → q = PhaseId.child b.points f.task := by
    intro f hf
    obtain ⟨e1, e2, e3, e4⟩ := hmemf f hf
    have hsome : (f.result fuel env).isSome = true := by
      unfold Future.result
      rw [e1, e2, e3, e4]
      exact hterm _ _
    obtain ⟨r, hr⟩ := Option.isSome_iff_exists.mp hsome
    have hlog := runTask_log _ _ _ _ _ _ _ _ r hr
    rw [e1, e2] at hlog
    exact ⟨r, hr, hlog.1, hlog.2.1, hlog.2.2.1, hlog.2.2.2⟩
  refine ⟨e, b1, _, h1, h2, ?_, ?_, ?_⟩
  · rw [← flatMap_singleton_eq_map,
      flatMap_filterMap_of_some _ _ (fun f => [(f.role, f.task)])]
    · simp only [pointFutures, List.flatMap_append, List.flatMap_map,
        flatMap_singleton_eq_map, List.map_append, List.map_map, Function.comp_def]
    · intro f hf
      obtain ⟨r, hr, a1, a2, _, _⟩ := hres f hf
      exact ⟨r, hr, by rw [a1, a2]⟩
  · rw [flatMap_filterMap_of_some _ _
      (fun f => [(PhaseId.root mpmc param, f.role.phaseName, PhaseId.child b.points f.task)])]
    · simp only [pointFutures, List.flatMap_append, List.flatMap_map,
        flatMap_singleton_eq_map, Role.phaseName, List.map_append, List.map_map,
        Function.comp_def]
    · intro f hf
      obtain ⟨r, hr, _, _, a3, _⟩ := hres f hf
      exact ⟨r, hr, a3⟩
  · intro r hr q n hmem
    obtain ⟨f, hf, hfr⟩ := List.mem_filterMap.mp hr
    obtain ⟨r1, hr1, _, a2, _, a4⟩ := hres f hf
    rw [hfr] at hr1
    cases hr1
    rw [a2]
    exact a4 q n hmem

/-- The scenario of the specification: the pair (2,3) gives two children named
"producer" and three named "consumer". -/
theorem tasks_create_own_phases_witness :
    ∃ e b1 rs, runPoint 2 (Env.quiet 0) 1 (2, 3) (100, -1, -1)
        (BenchmarkMPMC.create 1 1 0 [(100, -1, -1)] [(2, 3)]) = some (e, b1)
      ∧ b1.finished = (BenchmarkMPMC.create 1 1 0 [(100, -1, -1)] [(2, 3)]).finished ++ rs
      ∧ rs.map (fun r => (r.role, r.task))
          = (List.range 2).map (fun i => (Role.producer, i))
            ++ (List.range 3).map (fun i => (Role.consumer, 2 + i))
      ∧ rs.flatMap (fun r => createdPhases r.log)
          = (List.range 2).map
              (fun i => (PhaseId.root (2, 3) (100, -1, -1), "producer", PhaseId.child 0 i))
            ++ (List.range 3).map
              (fun i => (PhaseId.root (2, 3) (100, -1, -1), "consumer", PhaseId.child 0 (2 + i)))
      ∧ ∀ r, r ∈ rs → ∀ q n, TaskEvent.AddIterations q n ∈ r.log
          → q = PhaseId.child 0 r.task :=
  tasks_create_own_phases 2 (Env.quiet 0) 1 (2, 3) (100, -1, -1)
    (BenchmarkMPMC.create 1 1 0 [(100, -1, -1)] [(2, 3)]) rfl rfl
    (fun role task => quiet_isSome 2 1 (by norm_num) (by decide) role _ _ task)

end CppBenchmark
